import Mathlib

/-!
# interval_map (IntervalMapSol/Source.cpp)

A shallow embedding of the class template `interval_map<K, V>` and a
verification of its contract.

* `std::map<K, V>` is a list of key/value pairs in ascending key order.
* A `std::map` iterator is identified by the key of the node it points to
  (keys are unique, and iterators to a node stay valid while other nodes are
  inserted or erased), or it is `end()`.
* Every iterator or pointer operation whose behaviour is undefined in C++
  (decrementing `begin()`, incrementing or dereferencing `end()`, using an
  iterator or pointer to an erased node) yields `none`.
* The key type only needs `<` in the source; here it is a linear order.
  The value type only needs `==`; here it has decidable equality.
-/

universe u v

variable {K : Type u} {V : Type v}

/-! ## std::map operations used by the class -/

/-- An iterator of `std::map<K, V>`. -/
inductive Iter (K : Type u) where
  | node (key : K)
  | pastEnd
  deriving DecidableEq, Repr

/-- The target of the pointer `V* prevVal`: `&m_valBegin` or `&(it->second)`. -/
inductive ValPtr (K : Type u) where
  | valBegin
  | second (key : K)
  deriving DecidableEq, Repr

namespace StdMap

/-- The call `m_map.begin()`. -/
def begin : List (K × V) → Iter K
  | [] => Iter.pastEnd
  | p :: _ => Iter.node p.1

/-- The call `m_map.lower_bound(key)`: the first entry whose key is not less than `key`. -/
def lower_bound [LinearOrder K] : List (K × V) → K → Iter K
  | [], _ => Iter.pastEnd
  | p :: rest, key => if p.1 < key then lower_bound rest key else Iter.node p.1

/-- The call `m_map.upper_bound(key)`: the first entry whose key is greater than `key`. -/
def upper_bound [LinearOrder K] : List (K × V) → K → Iter K
  | [], _ => Iter.pastEnd
  | p :: rest, key => if key < p.1 then Iter.node p.1 else upper_bound rest key

/-- Key of the entry immediately before the entry with key `k`; `none` when that
entry is the first one or is absent. -/
def predKey [DecidableEq K] : List (K × V) → K → Option K
  | [], _ => none
  | [_], _ => none
  | p :: q :: rest, k =>
    if p.1 = k then none
    else if q.1 = k then some p.1
    else predKey (q :: rest) k

/-- The step `--it`. Undefined when `it == begin()`. -/
def dec [DecidableEq K] (m : List (K × V)) : Iter K → Option (Iter K)
  | Iter.pastEnd => m.getLast?.map (fun p => Iter.node p.1)
  | Iter.node k => (predKey m k).map Iter.node

/-- Iterator following the entry with key `k`; `none` when the entry is absent. -/
def succIter [DecidableEq K] : List (K × V) → K → Option (Iter K)
  | [], _ => none
  | p :: rest, k => if p.1 = k then some (begin rest) else succIter rest k

/-- The step `it++`. Undefined when `it == end()`. -/
def inc [DecidableEq K] (m : List (K × V)) : Iter K → Option (Iter K)
  | Iter.pastEnd => none
  | Iter.node k => succIter m k

/-- Value stored under key `k`, if the entry exists. -/
def valueAt [DecidableEq K] : List (K × V) → K → Option V
  | [], _ => none
  | p :: rest, k => if p.1 = k then some p.2 else valueAt rest k

/-- The access `it->second`. Undefined when `it == end()`. -/
def second [DecidableEq K] (m : List (K × V)) : Iter K → Option V
  | Iter.pastEnd => none
  | Iter.node k => valueAt m k

/-- The address `&(it->second)`. Undefined when `it == end()`. -/
def addrSecond [DecidableEq K] (m : List (K × V)) : Iter K → Option (ValPtr K)
  | Iter.pastEnd => none
  | Iter.node k => (valueAt m k).map (fun _ => ValPtr.second k)

/-- Removes the entry with key `k` and returns the iterator following it. -/
def eraseKey [DecidableEq K] : List (K × V) → K → Option (List (K × V) × Iter K)
  | [], _ => none
  | p :: rest, k =>
    if p.1 = k then some (rest, begin rest)
    else (eraseKey rest k).map (fun r => (p :: r.1, r.2))

/-- The call `m_map.erase(it)`: the map without the entry and the iterator
following the erased entry. Undefined when `it == end()`. -/
def erase [DecidableEq K] (m : List (K × V)) : Iter K → Option (List (K × V) × Iter K)
  | Iter.pastEnd => none
  | Iter.node k => eraseKey m k

/-- The call `m_map.insert_or_assign(k, v)`. -/
def insert_or_assign [LinearOrder K] : List (K × V) → K → V → List (K × V)
  | [], k, v => [(k, v)]
  | p :: rest, k, v =>
    if p.1 < k then p :: insert_or_assign rest k v
    else if k < p.1 then (k, v) :: p :: rest
    else (p.1, v) :: rest

/-- The call `m_map.emplace(k, v)`: the map, the iterator to the entry with
key `k`, and whether an entry was inserted. -/
def emplace [LinearOrder K] : List (K × V) → K → V → List (K × V) × Iter K × Bool
  | [], k, v => ([(k, v)], Iter.node k, true)
  | p :: rest, k, v =>
    if p.1 < k then
      let r := emplace rest k v
      (p :: r.1, r.2.1, r.2.2)
    else if k < p.1 then ((k, v) :: p :: rest, Iter.node k, true)
    else (p :: rest, Iter.node p.1, false)

/-- The distance from `begin()` to `it`, as `std::distance(m.begin(), it)`. -/
def position [DecidableEq K] : List (K × V) → Iter K → Nat
  | l, Iter.pastEnd => l.length
  | [], Iter.node _ => 0
  | p :: rest, Iter.node k => if p.1 = k then 0 else position rest (Iter.node k) + 1

end StdMap

/-! ## The class -/

/-- The data members of `interval_map<K, V>`. -/
structure interval_map (K : Type u) (V : Type v) where
  m_valBegin : V
  m_map : List (K × V)
  deriving DecidableEq, Repr

/-- The constructor `interval_map(V const& val)`. -/
def interval_map.ctor (val : V) : interval_map K V :=
  interval_map.mk val []

/-- The dereference `*prevVal`. -/
def derefPtr [DecidableEq K] (m_valBegin : V) (m_map : List (K × V)) : ValPtr K → Option V
  | ValPtr.valBegin => some m_valBegin
  | ValPtr.second k => StdMap.valueAt m_map k

/-- The variables of `assign` that change inside its `while (1)` loop. -/
structure LoopState (K : Type u) (V : Type v) where
  m_map : List (K × V)
  itBegin : Iter K
  prevVal : ValPtr K
  wipePrev : Bool
  deriving DecidableEq, Repr

/-- The statement `m_map.erase(--it)`, keeping the iterator `erase` returns. -/
def erasePrev [DecidableEq K] (m : List (K × V)) (it : Iter K) :
    Option (List (K × V) × Iter K) :=
  (StdMap.dec m it).bind (fun it1 => StdMap.erase m it1)

/-- One pass through the body of the `while (1)` loop of `assign`
(source lines 58-84): `Sum.inl` is the map at a `return`, `Sum.inr` the
variables at the end of the `else` branch. -/
def assign_body [LinearOrder K] [DecidableEq V] (m_valBegin : V) (keyBegin keyEnd : K)
    (val : V) (writeBegin : Bool) (itEnd : Iter K) (s : LoopState K V) :
    Option (List (K × V) ⊕ LoopState K V) :=
  if s.itBegin = itEnd then
    (derefPtr m_valBegin s.m_map s.prevVal).bind (fun pv =>
      if ¬ (pv = val) then
        let r := StdMap.emplace s.m_map keyEnd pv
        let it := r.2.1
        let inserted := r.2.2
        (if s.wipePrev && inserted && it != StdMap.begin r.1 then
            (erasePrev r.1 it).map (fun e => e.1)
          else some r.1).bind (fun m2 =>
        some (Sum.inl (if writeBegin then StdMap.insert_or_assign m2 keyBegin val else m2)))
      else
        (if s.wipePrev then (erasePrev s.m_map s.itBegin).map (fun e => e.1)
          else some s.m_map).bind (fun m2 =>
        some (Sum.inl (if writeBegin then StdMap.insert_or_assign m2 keyBegin val else m2))))
  else
    (StdMap.addrSecond s.m_map s.itBegin).bind (fun prevVal =>
      (if s.wipePrev && s.itBegin != StdMap.begin s.m_map then erasePrev s.m_map s.itBegin
        else some (s.m_map, s.itBegin)).bind (fun r =>
      (StdMap.inc r.1 r.2).bind (fun itNext =>
      some (Sum.inr (LoopState.mk r.1 itNext prevVal true)))))

/-- The `while (1)` loop of `assign`, run for at most `fuel` passes. -/
def assign_loop [LinearOrder K] [DecidableEq V] (m_valBegin : V) (keyBegin keyEnd : K)
    (val : V) (writeBegin : Bool) (itEnd : Iter K) :
    Nat → LoopState K V → Option (List (K × V))
  | 0, _ => none
  | fuel + 1, s =>
    match assign_body m_valBegin keyBegin keyEnd val writeBegin itEnd s with
    | none => none
    | some (Sum.inl result) => some result
    | some (Sum.inr s1) => assign_loop m_valBegin keyBegin keyEnd val writeBegin itEnd fuel s1

/-- The member function `assign(keyBegin, keyEnd, val)` (source lines 23-86).
The loop gets one pass per stored entry plus the returning pass. -/
def interval_map.assign [LinearOrder K] [DecidableEq V] (m : interval_map K V)
    (keyBegin keyEnd : K) (val : V) : Option (interval_map K V) :=
  if ¬ (keyBegin < keyEnd) then some m
  else if m.m_map.isEmpty then
    if val = m.m_valBegin then some m
    else
      some (interval_map.mk m.m_valBegin
        (StdMap.insert_or_assign (StdMap.insert_or_assign m.m_map keyEnd m.m_valBegin)
          keyBegin val))
  else
    let itBegin := StdMap.lower_bound m.m_map keyBegin
    if itBegin = Iter.pastEnd then
      (StdMap.dec m.m_map itBegin).bind (fun itLast =>
      (StdMap.second m.m_map itLast).bind (fun lastVal =>
        if lastVal = val then some m
        else
          some (interval_map.mk m.m_valBegin
            (StdMap.insert_or_assign (StdMap.insert_or_assign m.m_map keyEnd lastVal)
              keyBegin val))))
    else
      (if itBegin ≠ StdMap.begin m.m_map then
          (StdMap.dec m.m_map itBegin).bind (fun itTmp => StdMap.addrSecond m.m_map itTmp)
        else some ValPtr.valBegin).bind (fun prevVal =>
      (derefPtr m.m_valBegin m.m_map prevVal).bind (fun pv =>
        let writeBegin : Bool := !(decide (pv = val))
        let wipePrev : Bool := false
        let itEnd := StdMap.upper_bound m.m_map keyEnd
        (assign_loop m.m_valBegin keyBegin keyEnd val writeBegin itEnd
          (m.m_map.length + 1)
          (LoopState.mk m.m_map itBegin prevVal wipePrev)).map
          (fun result => interval_map.mk m.m_valBegin result)))

/-- The member function `operator[](key)` (source lines 89-97). -/
def interval_map.lookup [LinearOrder K] (m : interval_map K V) (key : K) : Option V :=
  let it := StdMap.upper_bound m.m_map key
  if it = StdMap.begin m.m_map then some m.m_valBegin
  else (StdMap.dec m.m_map it).bind (fun it1 => StdMap.second m.m_map it1)

/-- The variables of `assign` on entry to its `while (1)` loop, with the flag
`writeBegin` (source lines 35 and 44-55), for a call that reaches the loop. -/
def assign_entry [LinearOrder K] [DecidableEq V] (m : interval_map K V) (keyBegin : K)
    (val : V) : Option (LoopState K V × Bool) :=
  let itBegin := StdMap.lower_bound m.m_map keyBegin
  (if itBegin ≠ StdMap.begin m.m_map then
      (StdMap.dec m.m_map itBegin).bind (fun itTmp => StdMap.addrSecond m.m_map itTmp)
    else some ValPtr.valBegin).bind (fun prevVal =>
  (derefPtr m.m_valBegin m.m_map prevVal).bind (fun pv =>
    let writeBegin : Bool := !(decide (pv = val))
    let wipePrev : Bool := false
    some (LoopState.mk m.m_map itBegin prevVal wipePrev, writeBegin)))

/-- The variables of `assign` after `n` passes of the loop body that each took
the advancing `else` branch; `none` when one of them faulted or returned. -/
def assign_advance [LinearOrder K] [DecidableEq V] (m_valBegin : V) (keyBegin keyEnd : K)
    (val : V) (writeBegin : Bool) (itEnd : Iter K) : Nat → LoopState K V → Option (LoopState K V)
  | 0, s => some s
  | n + 1, s =>
    match assign_body m_valBegin keyBegin keyEnd val writeBegin itEnd s with
    | some (Sum.inr s1) => assign_advance m_valBegin keyBegin keyEnd val writeBegin itEnd n s1
    | _ => none

/-! ## Well-formedness -/

/-- Keys of the stored entries strictly increase, as in every `std::map`. -/
def sortedKeys [LinearOrder K] (l : List (K × V)) : Prop :=
  l.Pairwise (fun a b => a.1 < b.1)

instance [LinearOrder K] (l : List (K × V)) : Decidable (sortedKeys l) := by
  unfold sortedKeys; infer_instance

/-- No entry of `l` has the value of the entry before it; `prev` is the value
before the first entry. -/
def adjDistinct (prev : V) : List (K × V) → Prop
  | [] => True
  | p :: rest => prev ≠ p.2 ∧ adjDistinct p.2 rest

instance adjDistinct.decide [DecidableEq V] : (prev : V) → (l : List (K × V)) →
    Decidable (adjDistinct prev l)
  | _, [] => isTrue trivial
  | prev, p :: rest =>
    have := adjDistinct.decide p.2 rest
    by unfold adjDistinct; infer_instance

/-- Canonical form: strictly increasing keys, the first stored value differs
from `m_valBegin`, and consecutive stored entries have different values. -/
def interval_map.canonical [LinearOrder K] (m : interval_map K V) : Prop :=
  sortedKeys m.m_map ∧ adjDistinct m.m_valBegin m.m_map

instance [LinearOrder K] [DecidableEq V] (m : interval_map K V) : Decidable m.canonical := by
  unfold interval_map.canonical; infer_instance

/-! ## Auxiliary notions for the proofs -/

/-- Value of the last entry of `l`, or `d` when `l` is empty. -/
def lastVal (d : V) : List (K × V) → V
  | [] => d
  | p :: rest => lastVal p.2 rest

/-- The entries `assign` leaves in the key range `[b, e]`: `(b, v)` unless the
value `vb` in force before `b` is `v`, then `(e, x)` unless the value `x` in
force at `e` is `v`. -/
def newMid [DecidableEq V] (vb x : V) (b e : K) (v : V) : List (K × V) :=
  (if vb = v then [] else [(b, v)]) ++ (if x = v then [] else [(e, x)])

/-- The stored entries `assign` leaves behind, in terms of the old entries
`pre` (keys below `b`), `mid` (keys in `[b, e]`) and `post` (keys above `e`). -/
def assignResult [DecidableEq V] (v0 : V) (pre mid post : List (K × V)) (b e : K) (v : V) :
    List (K × V) :=
  pre ++ newMid (lastVal v0 pre) (lastVal (lastVal v0 pre) mid) b e v ++ post

/-- The stored entries `l` split at the interval `[b, e]`: `pre` holds the keys
below `b`, `mid` the keys in `[b, e]`, `post` the keys above `e`. -/
structure IsSplit [LinearOrder K] (l pre mid post : List (K × V)) (b e : K) : Prop where
  eq : l = pre ++ mid ++ post
  sorted : sortedKeys l
  pre_lt : ∀ q ∈ pre, q.1 < b
  mid_mem : ∀ q ∈ mid, b ≤ q.1 ∧ q.1 ≤ e
  post_gt : ∀ q ∈ post, e < q.1

/-- A map with increasing keys that is not in canonical form (two adjacent
entries carry `'B'`), used to exercise the scan of `assign`. -/
def scanExample : interval_map Int Char :=
  interval_map.mk 'A' [(1, 'B'), (3, 'B'), (7, 'A')]

/-! ## Specification-side definitions -/

/-- The adjacency-collapse pass of the specification: drops every entry whose
value equals the value of the entry immediately before it in the sequence
(`prev` for the first entry). -/
def collapse [DecidableEq V] (prev : V) : List (K × V) → List (K × V)
  | [] => []
  | p :: rest => if p.2 = prev then collapse p.2 rest else p :: collapse p.2 rest

/-- The rebuilt neighbourhood of the specification: the old entries with key
below `b`, then `(b, v)`, then `(e, x)`, then the old entries with key above `e`. -/
def rebuild [LinearOrder K] (l : List (K × V)) (b e : K) (v x : V) : List (K × V) :=
  l.filter (fun p => decide (p.1 < b)) ++ [(b, v), (e, x)] ++ l.filter (fun p => decide (e < p.1))

/-- States reachable from the constructor by calls of `assign`. -/
inductive Reachable [LinearOrder K] [DecidableEq V] : interval_map K V → Prop where
  | ctor (val : V) : Reachable (interval_map.ctor val)
  | assign (m m1 : interval_map K V) (b e : K) (v : V) :
      Reachable m → m.assign b e v = some m1 → Reachable m1

/-! ## Lemmas on the list model of std::map -/

theorem lastVal_append (d : V) (l1 l2 : List (K × V)) :
    lastVal d (l1 ++ l2) = lastVal (lastVal d l1) l2 := by
  induction l1 generalizing d with
  | nil => rfl
  | cons p rest ih => simp [lastVal, ih]

theorem lastVal_concat (d : V) (l : List (K × V)) (p : K × V) :
    lastVal d (l ++ [p]) = p.2 := by
  simp [lastVal_append, lastVal]

section ListLemmas

variable [LinearOrder K]

theorem lower_bound_append (pre rest : List (K × V)) (k : K)
    (hpre : ∀ q ∈ pre, q.1 < k) (hrest : ∀ q ∈ rest, k ≤ q.1) :
    StdMap.lower_bound (pre ++ rest) k = StdMap.begin rest := by
  induction pre with
  | nil =>
    cases rest with
    | nil => rfl
    | cons c rest =>
      have hc : ¬ c.1 < k := not_lt.mpr (hrest c (List.mem_cons_self _ _))
      simp [StdMap.lower_bound, StdMap.begin, hc]
  | cons a pre ih =>
    have ha : a.1 < k := hpre a (List.mem_cons_self _ _)
    simp only [List.cons_append, StdMap.lower_bound, ha, if_true]
    exact ih (fun q hq => hpre q (List.mem_cons_of_mem _ hq))

theorem upper_bound_append (pre rest : List (K × V)) (k : K)
    (hpre : ∀ q ∈ pre, q.1 ≤ k) (hrest : ∀ q ∈ rest, k < q.1) :
    StdMap.upper_bound (pre ++ rest) k = StdMap.begin rest := by
  induction pre with
  | nil =>
    cases rest with
    | nil => rfl
    | cons c rest =>
      have hc : k < c.1 := hrest c (List.mem_cons_self _ _)
      simp [StdMap.upper_bound, StdMap.begin, hc]
  | cons a pre ih =>
    have ha : ¬ k < a.1 := not_lt.mpr (hpre a (List.mem_cons_self _ _))
    simp only [List.cons_append, StdMap.upper_bound, ha, if_false]
    exact ih (fun q hq => hpre q (List.mem_cons_of_mem _ hq))

theorem valueAt_append_cons (pre rest : List (K × V)) (c : K × V)
    (hpre : ∀ q ∈ pre, q.1 < c.1) :
    StdMap.valueAt (pre ++ c :: rest) c.1 = some c.2 := by
  induction pre with
  | nil => simp [StdMap.valueAt]
  | cons a pre ih =>
    have ha : a.1 ≠ c.1 := ne_of_lt (hpre a (List.mem_cons_self _ _))
    simp only [List.cons_append, StdMap.valueAt, ha, if_false]
    exact ih (fun q hq => hpre q (List.mem_cons_of_mem _ hq))

theorem predKey_append_cons (pre rest : List (K × V)) (p c : K × V)
    (hpre : ∀ q ∈ pre, q.1 < c.1) (hp : p.1 < c.1) :
    StdMap.predKey (pre ++ p :: c :: rest) c.1 = some p.1 := by
  induction pre with
  | nil => simp [StdMap.predKey, ne_of_lt hp]
  | cons a pre ih =>
    have ha : a.1 ≠ c.1 := ne_of_lt (hpre a (List.mem_cons_self _ _))
    have ih1 := ih (fun q hq => hpre q (List.mem_cons_of_mem _ hq))
    cases pre with
    | nil =>
      rw [List.cons_append, List.nil_append, StdMap.predKey, if_neg ha, if_neg (ne_of_lt hp)]
      exact ih1
    | cons a1 pre1 =>
      have ha1 : a1.1 ≠ c.1 :=
        ne_of_lt (hpre a1 (List.mem_cons_of_mem _ (List.mem_cons_self _ _)))
      rw [List.cons_append, List.cons_append, StdMap.predKey, if_neg ha, if_neg ha1]
      exact ih1

theorem dec_pastEnd_concat (l : List (K × V)) (p : K × V) :
    StdMap.dec (l ++ [p]) Iter.pastEnd = some (Iter.node p.1) := by
  simp [StdMap.dec]

theorem succIter_append_cons (pre rest : List (K × V)) (c : K × V)
    (hpre : ∀ q ∈ pre, q.1 < c.1) :
    StdMap.succIter (pre ++ c :: rest) c.1 = some (StdMap.begin rest) := by
  induction pre with
  | nil => simp [StdMap.succIter]
  | cons a pre ih =>
    have ha : a.1 ≠ c.1 := ne_of_lt (hpre a (List.mem_cons_self _ _))
    simp only [List.cons_append, StdMap.succIter, ha, if_false]
    exact ih (fun q hq => hpre q (List.mem_cons_of_mem _ hq))

theorem eraseKey_append_cons (pre rest : List (K × V)) (c : K × V)
    (hpre : ∀ q ∈ pre, q.1 < c.1) :
    StdMap.eraseKey (pre ++ c :: rest) c.1 = some (pre ++ rest, StdMap.begin rest) := by
  induction pre with
  | nil => simp [StdMap.eraseKey]
  | cons a pre ih =>
    have ha : a.1 ≠ c.1 := ne_of_lt (hpre a (List.mem_cons_self _ _))
    rw [List.cons_append, StdMap.eraseKey, if_neg ha,
      ih (fun q hq => hpre q (List.mem_cons_of_mem _ hq))]
    rfl

theorem insert_or_assign_append (pre post : List (K × V)) (k : K) (v : V)
    (hpre : ∀ q ∈ pre, q.1 < k) (hpost : ∀ q ∈ post, k < q.1) :
    StdMap.insert_or_assign (pre ++ post) k v = pre ++ (k, v) :: post := by
  induction pre with
  | nil =>
    cases post with
    | nil => rfl
    | cons c post =>
      have hc : k < c.1 := hpost c (List.mem_cons_self _ _)
      simp [StdMap.insert_or_assign, hc, not_lt_of_lt hc]
  | cons a pre ih =>
    have ha : a.1 < k := hpre a (List.mem_cons_self _ _)
    rw [List.cons_append, StdMap.insert_or_assign, if_pos ha,
      ih (fun q hq => hpre q (List.mem_cons_of_mem _ hq))]
    rfl

theorem emplace_append (pre post : List (K × V)) (k : K) (v : V)
    (hpre : ∀ q ∈ pre, q.1 < k) (hpost : ∀ q ∈ post, k < q.1) :
    StdMap.emplace (pre ++ post) k v = (pre ++ (k, v) :: post, Iter.node k, true) := by
  induction pre with
  | nil =>
    cases post with
    | nil => rfl
    | cons c post =>
      have hc : k < c.1 := hpost c (List.mem_cons_self _ _)
      simp [StdMap.emplace, hc, not_lt_of_lt hc]
  | cons a pre ih =>
    have ha : a.1 < k := hpre a (List.mem_cons_self _ _)
    rw [List.cons_append, StdMap.emplace, if_pos ha,
      ih (fun q hq => hpre q (List.mem_cons_of_mem _ hq))]
    rfl

theorem emplace_present (pre post : List (K × V)) (c : K × V) (v : V)
    (hpre : ∀ q ∈ pre, q.1 < c.1) :
    StdMap.emplace (pre ++ c :: post) c.1 v = (pre ++ c :: post, Iter.node c.1, false) := by
  induction pre with
  | nil => simp [StdMap.emplace]
  | cons a pre ih =>
    have ha : a.1 < c.1 := hpre a (List.mem_cons_self _ _)
    rw [List.cons_append, StdMap.emplace, if_pos ha,
      ih (fun q hq => hpre q (List.mem_cons_of_mem _ hq))]

end ListLemmas

/-! ## The loop of assign -/

section LoopLemmas

variable [LinearOrder K]

theorem erasePrev_begin (pre post : List (K × V)) (p : K × V)
    (hpre : ∀ q ∈ pre, q.1 < p.1) (hpost : ∀ q ∈ post, p.1 < q.1) :
    erasePrev (pre ++ p :: post) (StdMap.begin post) = some (pre ++ post, StdMap.begin post) := by
  have herase : StdMap.erase (pre ++ p :: post) (Iter.node p.1)
      = some (pre ++ post, StdMap.begin post) := eraseKey_append_cons pre post p hpre
  cases post with
  | nil =>
    have hdec : StdMap.dec (pre ++ [p]) Iter.pastEnd = some (Iter.node p.1) :=
      dec_pastEnd_concat pre p
    simp only [erasePrev, StdMap.begin, hdec, Option.some_bind, herase]
  | cons d post =>
    have hd : p.1 < d.1 := hpost d (List.mem_cons_self _ _)
    have hdec : StdMap.dec (pre ++ p :: d :: post) (Iter.node d.1) = some (Iter.node p.1) := by
      simp only [StdMap.dec,
        predKey_append_cons pre post p d (fun q hq => lt_trans (hpre q hq) hd) hd, Option.map_some']
    simp only [erasePrev, StdMap.begin, hdec, Option.some_bind, herase]

theorem begin_ne_of_lt (l : List (K × V)) (k : K) (h : ∀ q ∈ l, k < q.1) :
    Iter.node k ≠ StdMap.begin l := by
  cases l with
  | nil => simp [StdMap.begin]
  | cons d l =>
    have hd : k < d.1 := h d (List.mem_cons_self _ _)
    simp [StdMap.begin, ne_of_lt hd]

theorem begin_append_ne (pre rest : List (K × V)) (p : K × V) (k : K)
    (hpre : ∀ q ∈ pre, q.1 < k) (hp : p.1 < k) :
    Iter.node k ≠ StdMap.begin (pre ++ p :: rest) := by
  cases pre with
  | nil => simp [StdMap.begin, ne_of_gt hp]
  | cons a pre =>
    have ha : a.1 < k := hpre a (List.mem_cons_self _ _)
    simp [StdMap.begin, ne_of_gt ha]

/-- The pointer `prevVal` computed at source lines 44-48 when `lower_bound`
found the entry `c`: it refers to the value in force just before `c`. -/
theorem prevVal_init (v0 : V) (pre rest : List (K × V)) (c : K × V)
    (hsorted : sortedKeys pre) (hc : ∀ q ∈ pre, q.1 < c.1) :
    ∃ ptr : ValPtr K,
      (if Iter.node c.1 ≠ StdMap.begin (pre ++ c :: rest) then
          (StdMap.dec (pre ++ c :: rest) (Iter.node c.1)).bind
            (fun itTmp => StdMap.addrSecond (pre ++ c :: rest) itTmp)
        else some ValPtr.valBegin) = some ptr
      ∧ ∀ tail : List (K × V), derefPtr v0 (pre ++ tail) ptr = some (lastVal v0 pre) := by
  rcases List.eq_nil_or_concat pre with hnil | ⟨pre1, p, hcat⟩
  · subst hnil
    exact ⟨ValPtr.valBegin, by simp [StdMap.begin], fun tail => rfl⟩
  · rw [List.concat_eq_append] at hcat
    subst hcat
    have hp : p.1 < c.1 := hc p (by simp)
    have hpre1 : ∀ q ∈ pre1, q.1 < p.1 := by
      intro q hq
      exact (List.pairwise_append.mp hsorted).2.2 q hq p (List.mem_singleton_self p)
    have hpre1c : ∀ q ∈ pre1, q.1 < c.1 := fun q hq => lt_trans (hpre1 q hq) hp
    refine ⟨ValPtr.second p.1, ?_, ?_⟩
    · have hne : Iter.node c.1 ≠ StdMap.begin (pre1 ++ p :: c :: rest) :=
        begin_append_ne pre1 (c :: rest) p c.1 hpre1c hp
      have hdec : StdMap.dec (pre1 ++ p :: c :: rest) (Iter.node c.1) = some (Iter.node p.1) := by
        simp only [StdMap.dec, predKey_append_cons pre1 rest p c hpre1c hp, Option.map_some']
      have haddr : StdMap.addrSecond (pre1 ++ p :: c :: rest) (Iter.node p.1)
          = some (ValPtr.second p.1) := by
        simp only [StdMap.addrSecond, valueAt_append_cons pre1 (c :: rest) p hpre1,
          Option.map_some']
      simp only [List.append_assoc, List.singleton_append, hne, ne_eq, not_false_eq_true,
        if_true, hdec, Option.some_bind, haddr]
    · intro tail
      simp only [List.append_assoc, List.singleton_append, derefPtr,
        valueAt_append_cons pre1 tail p hpre1, lastVal_append, lastVal]

variable [DecidableEq V]

/-- A pass of the loop body at an entry `c` that is not the first one visited:
the entry visited before, `p`, is erased and the scan moves on. -/
theorem assign_body_advance (v0 : V) (b e : K) (val : V) (wb : Bool)
    (pre rest : List (K × V)) (p c : K × V) (itEnd : Iter K) (ptr : ValPtr K)
    (hpre : ∀ q ∈ pre, q.1 < p.1) (hpc : p.1 < c.1) (hrest : ∀ q ∈ rest, c.1 < q.1)
    (hEnd : Iter.node c.1 ≠ itEnd) :
    assign_body v0 b e val wb itEnd (LoopState.mk (pre ++ p :: c :: rest) (Iter.node c.1) ptr true)
      = some (Sum.inr (LoopState.mk (pre ++ c :: rest) (StdMap.begin rest)
          (ValPtr.second c.1) true)) := by
  have hpre1 : ∀ q ∈ pre ++ [p], q.1 < c.1 := by
    intro q hq
    rcases List.mem_append.mp hq with h | h
    · exact lt_trans (hpre q h) hpc
    · rw [List.mem_singleton.mp h]; exact hpc
  have haddr : StdMap.addrSecond (pre ++ p :: c :: rest) (Iter.node c.1)
      = some (ValPtr.second c.1) := by
    have := valueAt_append_cons (pre ++ [p]) rest c hpre1
    simp only [List.append_assoc, List.singleton_append] at this
    simp only [StdMap.addrSecond, this, Option.map_some']
  have hne : Iter.node c.1 ≠ StdMap.begin (pre ++ p :: c :: rest) :=
    begin_append_ne pre (c :: rest) p c.1 (fun q hq => lt_trans (hpre q hq) hpc) hpc
  have herase : erasePrev (pre ++ p :: c :: rest) (Iter.node c.1)
      = some (pre ++ c :: rest, Iter.node c.1) := by
    have := erasePrev_begin pre (c :: rest) p hpre (by
      intro q hq
      rcases List.mem_cons.mp hq with h | h
      · rw [h]; exact hpc
      · exact lt_trans hpc (hrest q h))
    simpa [StdMap.begin] using this
  have hinc : StdMap.inc (pre ++ c :: rest) (Iter.node c.1) = some (StdMap.begin rest) :=
    succIter_append_cons pre rest c (fun q hq => lt_trans (hpre q hq) hpc)
  simp [assign_body, hEnd, haddr, hne, herase, hinc]

/-- The first pass of the loop body (`wipePrev` still false) at an entry `c`:
nothing is erased and the scan moves on. -/
theorem assign_body_first (v0 : V) (b e : K) (val : V) (wb : Bool)
    (pre rest : List (K × V)) (c : K × V) (itEnd : Iter K) (ptr : ValPtr K)
    (hpre : ∀ q ∈ pre, q.1 < c.1) (hEnd : Iter.node c.1 ≠ itEnd) :
    assign_body v0 b e val wb itEnd (LoopState.mk (pre ++ c :: rest) (Iter.node c.1) ptr false)
      = some (Sum.inr (LoopState.mk (pre ++ c :: rest) (StdMap.begin rest)
          (ValPtr.second c.1) true)) := by
  have haddr : StdMap.addrSecond (pre ++ c :: rest) (Iter.node c.1)
      = some (ValPtr.second c.1) := by
    simp only [StdMap.addrSecond, valueAt_append_cons pre rest c hpre, Option.map_some']
  have hinc : StdMap.inc (pre ++ c :: rest) (Iter.node c.1) = some (StdMap.begin rest) :=
    succIter_append_cons pre rest c hpre
  simp [assign_body, hEnd, haddr, hinc]

/-- The returning pass of the loop body after at least one entry was visited;
`p` is the last entry visited. -/
theorem assign_body_return_wipe (v0 : V) (b e : K) (val : V) (wb : Bool)
    (pre post : List (K × V)) (p : K × V)
    (hbe : b < e) (hpre : ∀ q ∈ pre, q.1 < b) (hbp : b ≤ p.1) (hpe : p.1 ≤ e)
    (hpost : ∀ q ∈ post, e < q.1) :
    assign_body v0 b e val wb (StdMap.begin post)
        (LoopState.mk (pre ++ p :: post) (StdMap.begin post) (ValPtr.second p.1) true)
      = some (Sum.inl (pre ++ (if wb then [(b, val)] else [])
          ++ (if p.2 = val then [] else [(e, p.2)]) ++ post)) := by
  have hprep : ∀ q ∈ pre, q.1 < p.1 := fun q hq => lt_of_lt_of_le (hpre q hq) hbp
  have hpostp : ∀ q ∈ post, p.1 < q.1 := fun q hq => lt_of_le_of_lt hpe (hpost q hq)
  have hderef : derefPtr v0 (pre ++ p :: post) (ValPtr.second p.1) = some p.2 :=
    valueAt_append_cons pre post p hprep
  have hwrite : ∀ tail : List (K × V), (∀ q ∈ tail, b < q.1) →
      (if wb then StdMap.insert_or_assign (pre ++ tail) b val else pre ++ tail)
        = pre ++ (if wb then [(b, val)] else []) ++ tail := by
    intro tail htail
    cases wb with
    | false => simp
    | true => simp [insert_or_assign_append pre tail b val hpre htail]
  by_cases hv : p.2 = val
  · have herase := erasePrev_begin pre post p hprep hpostp
    have hw := hwrite post (fun q hq => lt_of_le_of_lt hbp (hpostp q hq))
    simp [assign_body, hderef, hv, herase, hw]
  · rcases lt_or_eq_of_le hpe with hlt | heq
    · have hemp : StdMap.emplace (pre ++ p :: post) e p.2
          = (pre ++ p :: (e, p.2) :: post, Iter.node e, true) := by
        have := emplace_append (pre ++ [p]) post e p.2 (by
          intro q hq
          rcases List.mem_append.mp hq with h | h
          · exact lt_trans (hprep q h) hlt
          · rw [List.mem_singleton.mp h]; exact hlt) hpost
        simpa using this
      have hne : Iter.node e ≠ StdMap.begin (pre ++ p :: (e, p.2) :: post) :=
        begin_append_ne pre _ p e (fun q hq => lt_trans (hprep q hq) hlt) hlt
      have herase : erasePrev (pre ++ p :: (e, p.2) :: post) (Iter.node e)
          = some (pre ++ (e, p.2) :: post, Iter.node e) := by
        have := erasePrev_begin pre ((e, p.2) :: post) p hprep (by
          intro q hq
          rcases List.mem_cons.mp hq with h | h
          · rw [h]; exact hlt
          · exact hpostp q h)
        simpa [StdMap.begin] using this
      have hw := hwrite ((e, p.2) :: post) (by
        intro q hq
        rcases List.mem_cons.mp hq with h | h
        · rw [h]; exact lt_of_le_of_lt hbp hlt
        · exact lt_of_le_of_lt hbp (hpostp q h))
      simp [assign_body, hderef, hv, hemp, hne, herase, hw]
    · have hemp : StdMap.emplace (pre ++ p :: post) e p.2
          = (pre ++ p :: post, Iter.node p.1, false) := by
        rw [← heq]; exact emplace_present pre post p p.2 hprep
      have hw := hwrite (p :: post) (by
        intro q hq
        rcases List.mem_cons.mp hq with h | h
        · rw [h, heq]; exact hbe
        · exact lt_of_le_of_lt hbp (hpostp q h))
      have hp : (e, p.2) = p := by rw [← heq]
      simp [assign_body, hderef, hv, hemp, hw, hp]

/-- The returning pass of the loop body when no entry was visited: `prevVal`
still points to the value in force before `keyBegin`. -/
theorem assign_body_return_nowipe (v0 : V) (b e : K) (val : V)
    (pre post : List (K × V)) (ptr : ValPtr K) (pv : V)
    (hbe : b < e) (hpre : ∀ q ∈ pre, q.1 < b) (hpost : ∀ q ∈ post, e < q.1)
    (hderef : derefPtr v0 (pre ++ post) ptr = some pv) :
    assign_body v0 b e val (!(decide (pv = val))) (StdMap.begin post)
        (LoopState.mk (pre ++ post) (StdMap.begin post) ptr false)
      = some (Sum.inl (pre ++ (if pv = val then [] else [(b, val)])
          ++ (if pv = val then [] else [(e, pv)]) ++ post)) := by
  by_cases hv : pv = val
  · simp [assign_body, hderef, hv]
  · have hemp : StdMap.emplace (pre ++ post) e pv = (pre ++ (e, pv) :: post, Iter.node e, true) :=
      emplace_append pre post e pv (fun q hq => lt_trans (hpre q hq) hbe) hpost
    have hins : StdMap.insert_or_assign (pre ++ (e, pv) :: post) b val
        = pre ++ (b, val) :: (e, pv) :: post :=
      insert_or_assign_append pre ((e, pv) :: post) b val hpre (by
        intro q hq
        rcases List.mem_cons.mp hq with h | h
        · rw [h]; exact hbe
        · exact lt_trans hbe (hpost q h))
    simp [assign_body, hderef, hv, hemp, hins]

/-- The loop, entered after an entry `p` was visited and with the entries `mid`
still to visit, erases `p` and all of `mid` but the last and returns. -/
theorem assign_loop_wipe (v0 : V) (b e : K) (val : V) (wb : Bool) (post : List (K × V))
    (hbe : b < e) (hpost : ∀ q ∈ post, e < q.1) (mid : List (K × V)) :
    ∀ (pre : List (K × V)) (p : K × V) (fuel : Nat),
      (∀ q ∈ pre, q.1 < b) → b ≤ p.1 → sortedKeys (p :: mid) → (∀ q ∈ p :: mid, q.1 ≤ e) →
      mid.length < fuel →
      assign_loop v0 b e val wb (StdMap.begin post) fuel
          (LoopState.mk (pre ++ p :: (mid ++ post)) (StdMap.begin (mid ++ post))
            (ValPtr.second p.1) true)
        = some (pre ++ (if wb then [(b, val)] else [])
            ++ (if lastVal p.2 mid = val then [] else [(e, lastVal p.2 mid)]) ++ post) := by
  induction mid with
  | nil =>
    intro pre p fuel hpre hbp _ hle hfuel
    obtain ⟨f, rfl⟩ : ∃ f, fuel = f + 1 := ⟨fuel - 1, by omega⟩
    have hbody := assign_body_return_wipe v0 b e val wb pre post p hbe hpre hbp
      (hle p (List.mem_cons_self _ _)) hpost
    simp only [List.nil_append, assign_loop, hbody, lastVal]
  | cons c mid ih =>
    intro pre p fuel hpre hbp hsorted hle hfuel
    obtain ⟨f, rfl⟩ : ∃ f, fuel = f + 1 := ⟨fuel - 1, by omega⟩
    have hs := List.pairwise_cons.mp hsorted
    have hpc : p.1 < c.1 := hs.1 c (List.mem_cons_self _ _)
    have hsc := List.pairwise_cons.mp hs.2
    have hce : c.1 ≤ e := hle c (List.mem_cons_of_mem _ (List.mem_cons_self _ _))
    have hrest : ∀ q ∈ mid ++ post, c.1 < q.1 := by
      intro q hq
      rcases List.mem_append.mp hq with h | h
      · exact hsc.1 q h
      · exact lt_of_le_of_lt hce (hpost q h)
    have hEnd : Iter.node c.1 ≠ StdMap.begin post :=
      begin_ne_of_lt post c.1 (fun q hq => lt_of_le_of_lt hce (hpost q hq))
    have hbody := assign_body_advance v0 b e val wb pre (mid ++ post) p c (StdMap.begin post)
      (ValPtr.second p.1) (fun q hq => lt_of_lt_of_le (hpre q hq) hbp) hpc hrest hEnd
    have hih := ih pre c f hpre (le_trans hbp (le_of_lt hpc)) hs.2
      (fun q hq => hle q (List.mem_cons_of_mem _ hq)) (by simp at hfuel; omega)
    change assign_loop v0 b e val wb (StdMap.begin post) (f + 1)
      (LoopState.mk (pre ++ p :: c :: (mid ++ post)) (Iter.node c.1) (ValPtr.second p.1) true) = _
    rw [assign_loop, hbody]
    exact hih

/-- Closed form of `assign` on a non-empty interval: with the stored entries
split into `pre` (keys below `b`), `mid` (keys in `[b, e]`) and `post` (keys
above `e`), the call returns and leaves `assignResult`. -/
theorem assign_decomp (v0 : V) (pre mid post : List (K × V)) (b e : K) (v : V)
    (hbe : b < e) (hsorted : sortedKeys (pre ++ mid ++ post))
    (hpre : ∀ q ∈ pre, q.1 < b) (hmid : ∀ q ∈ mid, b ≤ q.1 ∧ q.1 ≤ e)
    (hpost : ∀ q ∈ post, e < q.1) :
    (interval_map.mk v0 (pre ++ mid ++ post)).assign b e v
      = some (interval_map.mk v0 (assignResult v0 pre mid post b e v)) := by
  have hspre : sortedKeys pre :=
    (List.pairwise_append.mp (List.pairwise_append.mp hsorted).1).1
  have hsmid : sortedKeys mid :=
    (List.pairwise_append.mp (List.pairwise_append.mp hsorted).1).2.1
  cases mid with
  | cons c mid1 =>
    have hc := hmid c (List.mem_cons_self _ _)
    obtain ⟨l, hl⟩ : ∃ l, l = pre ++ c :: (mid1 ++ post) := ⟨_, rfl⟩
    have hl2 : pre ++ c :: mid1 ++ post = l := by rw [hl]; simp
    have hprec : ∀ q ∈ pre, q.1 < c.1 := fun q hq => lt_of_lt_of_le (hpre q hq) hc.1
    have hempty : l.isEmpty = false := by rw [hl]; cases pre <;> rfl
    have hlb : StdMap.lower_bound l b = Iter.node c.1 := by
      rw [hl]
      exact lower_bound_append pre (c :: (mid1 ++ post)) b hpre (by
        intro q hq
        rcases List.mem_cons.mp hq with h | h
        · rw [h]; exact hc.1
        · rcases List.mem_append.mp h with h1 | h1
          · exact (hmid q (List.mem_cons_of_mem _ h1)).1
          · exact le_of_lt (lt_trans hbe (hpost q h1)))
    have hub : StdMap.upper_bound l e = StdMap.begin post := by
      rw [← hl2]
      exact upper_bound_append (pre ++ c :: mid1) post e (by
        intro q hq
        rcases List.mem_append.mp hq with h | h
        · exact le_of_lt (lt_trans (hpre q h) hbe)
        · exact (hmid q h).2) hpost
    obtain ⟨ptr, hptr, hderef⟩ := prevVal_init v0 pre (mid1 ++ post) c hspre hprec
    rw [← hl] at hptr
    have hd := hderef (c :: (mid1 ++ post))
    rw [← hl] at hd
    have hfirst := assign_body_first v0 b e v (!(decide (lastVal v0 pre = v))) pre (mid1 ++ post) c
      (StdMap.begin post) ptr hprec
      (begin_ne_of_lt post c.1 (fun q hq => lt_of_le_of_lt hc.2 (hpost q hq)))
    have hwipe := assign_loop_wipe v0 b e v (!(decide (lastVal v0 pre = v))) post hbe hpost mid1
      pre c l.length hpre hc.1 hsmid (fun q hq => (hmid q hq).2) (by rw [hl]; simp; omega)
    rw [← hl] at hfirst hwipe
    have hloop : assign_loop v0 b e v (!(decide (lastVal v0 pre = v))) (StdMap.begin post)
        (l.length + 1) (LoopState.mk l (Iter.node c.1) ptr false)
        = some (assignResult v0 pre (c :: mid1) post b e v) := by
      rw [assign_loop, hfirst]
      simp only [hwipe, assignResult, newMid, lastVal]
      by_cases hv : lastVal v0 pre = v <;> simp [hv]
    rw [hl2]
    simp [interval_map.assign, hbe, hempty, hlb, hub, hptr, hd, hloop]
  | nil =>
    cases post with
    | cons d post1 =>
      have hd := hpost d (List.mem_cons_self _ _)
      obtain ⟨l, hl⟩ : ∃ l, l = pre ++ d :: post1 := ⟨_, rfl⟩
      have hl2 : pre ++ [] ++ d :: post1 = l := by rw [hl]; simp
      have hpred : ∀ q ∈ pre, q.1 < d.1 := fun q hq => lt_trans (lt_trans (hpre q hq) hbe) hd
      have hempty : l.isEmpty = false := by rw [hl]; cases pre <;> rfl
      have hlb : StdMap.lower_bound l b = Iter.node d.1 := by
        rw [hl]
        exact lower_bound_append pre (d :: post1) b hpre
          (fun q hq => le_of_lt (lt_trans hbe (hpost q hq)))
      have hub : StdMap.upper_bound l e = Iter.node d.1 := by
        rw [hl]
        exact upper_bound_append pre (d :: post1) e
          (fun q hq => le_of_lt (lt_trans (hpre q hq) hbe)) hpost
      obtain ⟨ptr, hptr, hderef⟩ := prevVal_init v0 pre post1 d hspre hpred
      rw [← hl] at hptr
      have hdr := hderef (d :: post1)
      have hret := assign_body_return_nowipe v0 b e v pre (d :: post1) ptr (lastVal v0 pre)
        hbe hpre hpost hdr
      rw [← hl] at hdr hret
      have hloop : assign_loop v0 b e v (!(decide (lastVal v0 pre = v))) (Iter.node d.1)
          (l.length + 1) (LoopState.mk l (Iter.node d.1) ptr false)
          = some (assignResult v0 pre [] (d :: post1) b e v) := by
        rw [assign_loop]
        simp only [StdMap.begin] at hret
        rw [hret]
        simp only [assignResult, newMid, lastVal, List.append_assoc]
      rw [hl2]
      simp [interval_map.assign, hbe, hempty, hlb, hub, hptr, hdr, hloop]
    | nil =>
      rcases List.eq_nil_or_concat pre with hnil | ⟨pre1, p, hcat⟩
      · subst hnil
        by_cases hv : v = v0
        · simp [interval_map.assign, hbe, hv, assignResult, newMid, lastVal]
        · have hv1 : ¬ v0 = v := fun h => hv h.symm
          simp [interval_map.assign, hbe, hv, hv1, assignResult, newMid, lastVal,
            StdMap.insert_or_assign, not_lt_of_lt hbe]
      · rw [List.concat_eq_append] at hcat
        subst hcat
        have hpre1 : ∀ q ∈ pre1, q.1 < p.1 := by
          intro q hq
          exact (List.pairwise_append.mp hspre).2.2 q hq p (List.mem_singleton_self p)
        obtain ⟨l, hl⟩ : ∃ l, l = pre1 ++ [p] := ⟨_, rfl⟩
        have hl2 : pre1 ++ [p] ++ [] ++ [] = l := by rw [hl]; simp
        have hempty : l.isEmpty = false := by rw [hl]; cases pre1 <;> rfl
        have hlb : StdMap.lower_bound l b = Iter.pastEnd := by
          have := lower_bound_append (pre1 ++ [p]) [] b hpre (by simp)
          rw [hl]; simpa [StdMap.begin] using this
        have hdec : StdMap.dec l Iter.pastEnd = some (Iter.node p.1) := by
          rw [hl]; exact dec_pastEnd_concat pre1 p
        have hsec : StdMap.second l (Iter.node p.1) = some p.2 := by
          rw [hl]; exact valueAt_append_cons pre1 [] p hpre1
        have hins1 : ∀ w : V, StdMap.insert_or_assign l e w = l ++ [(e, w)] := by
          intro w
          have := insert_or_assign_append l [] e w
            (by rw [hl]; exact fun q hq => lt_trans (hpre q hq) hbe) (by simp)
          simpa using this
        have hins2 : ∀ w : V, StdMap.insert_or_assign (l ++ [(e, w)]) b v
            = l ++ [(b, v), (e, w)] := by
          intro w
          exact insert_or_assign_append l [(e, w)] b v (by rw [hl]; exact hpre) (by simp [hbe])
        have hlast : lastVal v0 l = p.2 := by rw [hl]; exact lastVal_concat v0 pre1 p
        rw [hl2]
        by_cases hv : p.2 = v
        · simp [interval_map.assign, hbe, hempty, hlb, hdec, hsec, hv, assignResult, newMid, ← hl,
            hlast, lastVal]
        · simp [interval_map.assign, hbe, hempty, hlb, hdec, hsec, hv, assignResult, newMid, ← hl,
            hlast, lastVal, hins1, hins2]

end LoopLemmas

/-! ## Splitting the stored entries; the lookup -/

section FilterLemmas
variable [LinearOrder K]

/-- In a list with increasing keys, the entries satisfying a downward-closed
key predicate form an initial segment. -/
theorem sortedKeys_filter_split (P : K → Bool) (hP : ∀ x y : K, x < y → P y = true → P x = true)
    (l : List (K × V)) (hs : sortedKeys l) :
    l = l.filter (fun p => P p.1) ++ l.filter (fun p => !(P p.1)) := by
  induction l with
  | nil => rfl
  | cons a l ih =>
    have hsa := List.pairwise_cons.mp hs
    by_cases ha : P a.1 = true
    · have := ih hsa.2
      simp only [List.filter_cons, ha, if_true, Bool.not_true, List.cons_append]
      simp only [Bool.false_eq_true, if_false]
      rw [← this]
    · have hall : ∀ q ∈ l, P q.1 = false := by
        intro q hq
        by_contra hq1
        exact ha (hP a.1 q.1 (hsa.1 q hq) (by simpa using hq1))
      have h1 : l.filter (fun p => P p.1) = [] := by
        rw [List.filter_eq_nil_iff]
        intro q hq
        simp [hall q hq]
      have h2 : l.filter (fun p => !(P p.1)) = l := by
        rw [List.filter_eq_self]
        intro q hq
        simp [hall q hq]
      simp only [Bool.not_eq_true] at ha
      simp [List.filter_cons, ha, h1, h2]

theorem sortedKeys_filter (P : K × V → Bool) (l : List (K × V)) (hs : sortedKeys l) :
    sortedKeys (l.filter P) :=
  List.Pairwise.filter P hs

/-- Three-way split of the stored entries at the interval `[b, e]`. -/
theorem sortedKeys_three_split (l : List (K × V)) (b e : K) (hbe : b < e) (hs : sortedKeys l) :
    l = l.filter (fun p => decide (p.1 < b))
        ++ l.filter (fun p => decide (b ≤ p.1 ∧ p.1 ≤ e))
        ++ l.filter (fun p => decide (e < p.1)) := by
  have h1 := sortedKeys_filter_split (fun k => decide (k < b))
    (fun x y hxy hy => by simp at hy ⊢; exact lt_trans hxy hy) l hs
  have h2 := sortedKeys_filter_split (fun k => decide (k ≤ e))
    (fun x y hxy hy => by simp at hy ⊢; exact le_trans (le_of_lt hxy) hy)
    (l.filter (fun p => !(decide (p.1 < b)))) (sortedKeys_filter _ l hs)
  have h3 : (l.filter (fun p => !(decide (p.1 < b)))).filter (fun p => decide (p.1 ≤ e))
      = l.filter (fun p => decide (b ≤ p.1 ∧ p.1 ≤ e)) := by
    rw [List.filter_filter]
    apply List.filter_congr
    intro q _
    by_cases hq1 : q.1 < b <;> by_cases hq2 : q.1 ≤ e <;>
      simp [hq1, hq2, not_le.mpr, le_of_not_lt]
  have h4 : (l.filter (fun p => !(decide (p.1 < b)))).filter (fun p => !(decide (p.1 ≤ e)))
      = l.filter (fun p => decide (e < p.1)) := by
    rw [List.filter_filter]
    apply List.filter_congr
    intro q _
    by_cases hq : e < q.1
    · simp [hq, not_lt.mpr (le_of_lt (lt_trans hbe hq))]
    · simp [hq, not_lt.mp hq]
  beta_reduce at h1 h2
  rw [h3, h4] at h2
  rw [List.append_assoc, ← h2]
  exact h1

end FilterLemmas

section LookupLemmas
variable [LinearOrder K]

theorem dec_begin (pre post : List (K × V)) (p : K × V)
    (hpre : ∀ q ∈ pre, q.1 < p.1) (hpost : ∀ q ∈ post, p.1 < q.1) :
    StdMap.dec (pre ++ p :: post) (StdMap.begin post) = some (Iter.node p.1) := by
  cases post with
  | nil => exact dec_pastEnd_concat pre p
  | cons d post =>
    have hd : p.1 < d.1 := hpost d (List.mem_cons_self _ _)
    simp only [StdMap.begin, StdMap.dec,
      predKey_append_cons pre post p d (fun q hq => lt_trans (hpre q hq) hd) hd, Option.map_some']

theorem begin_ne_begin (pre post : List (K × V)) (p : K × V)
    (hpre : ∀ q ∈ pre, q.1 < p.1) (hpost : ∀ q ∈ post, p.1 < q.1) :
    StdMap.begin post ≠ StdMap.begin (pre ++ p :: post) := by
  cases post with
  | nil => cases pre <;> simp [StdMap.begin]
  | cons d post =>
    have hd : p.1 < d.1 := hpost d (List.mem_cons_self _ _)
    exact begin_append_ne pre (d :: post) p d.1 (fun q hq => lt_trans (hpre q hq) hd) hd

/-- The lookup at `k` when the stored entries split into `Q` (keys up to `k`)
and `R` (keys above `k`): the value of the last entry of `Q`, or `m_valBegin`. -/
theorem lookup_decomp (v0 : V) (Q R : List (K × V)) (k : K) (hsQ : sortedKeys Q)
    (hQ : ∀ q ∈ Q, q.1 ≤ k) (hR : ∀ q ∈ R, k < q.1) :
    (interval_map.mk v0 (Q ++ R)).lookup k = some (lastVal v0 Q) := by
  have hub := upper_bound_append Q R k hQ hR
  rcases List.eq_nil_or_concat Q with hnil | ⟨Q1, p, hcat⟩
  · subst hnil
    simp only [List.nil_append] at hub
    simp [interval_map.lookup, hub, lastVal]
  · rw [List.concat_eq_append] at hcat
    subst hcat
    have hp : ∀ q ∈ Q1, q.1 < p.1 := fun q hq =>
      (List.pairwise_append.mp hsQ).2.2 q hq p (List.mem_singleton_self p)
    have hpk : p.1 ≤ k := hQ p (by simp)
    have hRp : ∀ q ∈ R, p.1 < q.1 := fun q hq => lt_of_le_of_lt hpk (hR q hq)
    have hl : Q1 ++ [p] ++ R = Q1 ++ p :: R := by simp
    rw [hl] at hub ⊢
    have hne := begin_ne_begin Q1 R p hp hRp
    have hdec := dec_begin Q1 R p hp hRp
    have hsec : StdMap.second (Q1 ++ p :: R) (Iter.node p.1) = some p.2 :=
      valueAt_append_cons Q1 R p hp
    simp [interval_map.lookup, hub, hne, hdec, hsec, lastVal_append, lastVal]

/-- The lookup in terms of the stored entries with key up to `k`. -/
theorem lookup_eq_lastVal (m : interval_map K V) (hs : sortedKeys m.m_map) (k : K) :
    m.lookup k = some (lastVal m.m_valBegin (m.m_map.filter (fun p => decide (p.1 ≤ k)))) := by
  have hsplit := sortedKeys_filter_split (fun x => decide (x ≤ k))
    (fun x y hxy hy => by simp at hy ⊢; exact le_trans (le_of_lt hxy) hy) m.m_map hs
  beta_reduce at hsplit
  have h := lookup_decomp m.m_valBegin (m.m_map.filter (fun p => decide (p.1 ≤ k)))
    (m.m_map.filter (fun p => !(decide (p.1 ≤ k)))) k (sortedKeys_filter _ _ hs)
    (fun q hq => by simpa using (List.mem_filter.mp hq).2)
    (fun q hq => by simpa using (List.mem_filter.mp hq).2)
  rw [← hsplit] at h
  exact h

/-- In a list with increasing keys, the entry with the greatest key is the last one. -/
theorem lastVal_eq_of_greatest (Q : List (K × V)) :
    ∀ (d : V) (p : K × V), sortedKeys Q → p ∈ Q → (∀ q ∈ Q, q.1 ≤ p.1) → lastVal d Q = p.2 := by
  induction Q with
  | nil => intro d p _ hp; simp at hp
  | cons a Q ih =>
    intro d p hs hp hmax
    have hsa := List.pairwise_cons.mp hs
    cases Q with
    | nil =>
      have : p = a := by simpa using hp
      rw [this]; rfl
    | cons c Q1 =>
      have hpQ : p ∈ c :: Q1 := by
        rcases List.mem_cons.mp hp with h | h
        · exfalso
          have h1 : a.1 < c.1 := hsa.1 c (List.mem_cons_self _ _)
          have h2 : c.1 ≤ p.1 := hmax c (List.mem_cons_of_mem _ (List.mem_cons_self _ _))
          rw [h] at h2
          exact absurd h1 (not_lt.mpr h2)
        · exact h
      exact ih a.2 p hsa.2 hpQ (fun q hq => hmax q (List.mem_cons_of_mem _ hq))

end LookupLemmas

/-! ## The entries left by assign -/

theorem isSplit_filter [LinearOrder K] (l : List (K × V)) (b e : K) (hbe : b < e) (hs : sortedKeys l) :
    IsSplit l (l.filter (fun p => decide (p.1 < b)))
      (l.filter (fun p => decide (b ≤ p.1 ∧ p.1 ≤ e)))
      (l.filter (fun p => decide (e < p.1))) b e where
  eq := sortedKeys_three_split l b e hbe hs
  sorted := hs
  pre_lt := fun q hq => by simpa using (List.mem_filter.mp hq).2
  mid_mem := fun q hq => by simpa using (List.mem_filter.mp hq).2
  post_gt := fun q hq => by simpa using (List.mem_filter.mp hq).2

/-- Closed form of `assign` on a non-empty interval, with the stored entries
split by `List.filter`. -/
theorem assign_eq [LinearOrder K] [DecidableEq V] (m : interval_map K V) (b e : K) (v : V) (hbe : b < e)
    (hs : sortedKeys m.m_map) :
    m.assign b e v = some (interval_map.mk m.m_valBegin
      (assignResult m.m_valBegin (m.m_map.filter (fun p => decide (p.1 < b)))
        (m.m_map.filter (fun p => decide (b ≤ p.1 ∧ p.1 ≤ e)))
        (m.m_map.filter (fun p => decide (e < p.1))) b e v)) := by
  have h := isSplit_filter m.m_map b e hbe hs
  have hd := assign_decomp m.m_valBegin _ _ _ b e v hbe (h.eq ▸ h.sorted) h.pre_lt h.mid_mem
    h.post_gt
  rw [← h.eq] at hd
  exact hd


theorem lastVal_newMid [DecidableEq V] (vb x : V) (b e : K) (v : V) :
    lastVal vb (newMid vb x b e v) = x := by
  unfold newMid
  by_cases h1 : vb = v <;> by_cases h2 : x = v <;> simp [h1, h2, lastVal]

theorem adjDistinct_newMid [DecidableEq V] (vb x : V) (b e : K) (v : V) :
    adjDistinct vb (newMid vb x b e v) := by
  unfold newMid
  by_cases h1 : vb = v <;> by_cases h2 : x = v <;> simp [h1, h2, adjDistinct]
  · exact fun h => h2 h.symm
  · exact fun h => h2 h.symm

theorem sortedKeys_newMid [LinearOrder K] [DecidableEq V] (vb x : V) (b e : K) (v : V) (hbe : b < e) :
    sortedKeys (newMid vb x b e v) := by
  unfold newMid sortedKeys
  by_cases h1 : vb = v <;> by_cases h2 : x = v <;> simp [h1, h2, hbe]

theorem mem_newMid [LinearOrder K] [DecidableEq V] (vb x : V) (b e : K) (v : V) (hbe : b < e) :
    ∀ q ∈ newMid vb x b e v, b ≤ q.1 ∧ q.1 ≤ e := by
  unfold newMid
  intro q hq
  by_cases h1 : vb = v <;> by_cases h2 : x = v <;> simp [h1, h2] at hq
  · rw [hq]; exact ⟨le_of_lt hbe, le_refl _⟩
  · rw [hq]; exact ⟨le_refl _, le_of_lt hbe⟩
  · rcases hq with hq | hq <;> rw [hq]
    · exact ⟨le_refl _, le_of_lt hbe⟩
    · exact ⟨le_of_lt hbe, le_refl _⟩

/-- Entries with increasing keys in `[b, e]`, put between entries below `b`
and entries above `e`, give increasing keys. -/
theorem sortedKeys_sandwich [LinearOrder K] (pre X post : List (K × V)) (b e : K) (hbe : b < e)
    (hpre : sortedKeys pre) (hX : sortedKeys X) (hpost : sortedKeys post)
    (hpre_lt : ∀ q ∈ pre, q.1 < b) (hX_mem : ∀ q ∈ X, b ≤ q.1 ∧ q.1 ≤ e)
    (hpost_gt : ∀ q ∈ post, e < q.1) :
    sortedKeys (pre ++ X ++ post) := by
  unfold sortedKeys at *
  rw [List.pairwise_append, List.pairwise_append]
  refine ⟨⟨hpre, hX, ?_⟩, hpost, ?_⟩
  · intro x hx y hy
    exact lt_of_lt_of_le (hpre_lt x hx) (hX_mem y hy).1
  · intro x hx y hy
    rcases List.mem_append.mp hx with h | h
    · exact lt_trans (lt_trans (hpre_lt x h) hbe) (hpost_gt y hy)
    · exact lt_of_le_of_lt (hX_mem x h).2 (hpost_gt y hy)

theorem IsSplit.sorted_parts [LinearOrder K] {l pre mid post : List (K × V)} {b e : K}
    (h : IsSplit l pre mid post b e) : sortedKeys pre ∧ sortedKeys mid ∧ sortedKeys post := by
  have hs : sortedKeys (pre ++ mid ++ post) := h.eq ▸ h.sorted
  have hs1 := List.pairwise_append.mp hs
  have hs2 := List.pairwise_append.mp hs1.1
  exact ⟨hs2.1, hs2.2.1, hs1.2.1⟩

/-- The entries left by `assign` split at `[b, e]` into the old `pre`, the new
middle part and the old `post`. -/
theorem isSplit_assignResult [LinearOrder K] [DecidableEq V] (l pre mid post : List (K × V)) (b e : K) (v0 v : V)
    (hbe : b < e) (h : IsSplit l pre mid post b e) :
    IsSplit (assignResult v0 pre mid post b e v) pre
      (newMid (lastVal v0 pre) (lastVal (lastVal v0 pre) mid) b e v) post b e where
  eq := rfl
  sorted := sortedKeys_sandwich pre _ post b e hbe h.sorted_parts.1
    (sortedKeys_newMid _ _ b e v hbe) h.sorted_parts.2.2 h.pre_lt
    (mem_newMid _ _ b e v hbe) h.post_gt
  pre_lt := h.pre_lt
  mid_mem := mem_newMid _ _ b e v hbe
  post_gt := h.post_gt

theorem adjDistinct_append (d : V) (l1 l2 : List (K × V)) :
    adjDistinct d (l1 ++ l2) ↔ adjDistinct d l1 ∧ adjDistinct (lastVal d l1) l2 := by
  induction l1 generalizing d with
  | nil => simp [adjDistinct, lastVal]
  | cons a l1 ih => simp [adjDistinct, lastVal, ih, and_assoc]

/-- The lookup at a key of `[b, e)` after `assign` is the assigned value. -/
theorem lookup_assignResult_inside [LinearOrder K] [DecidableEq V] (l pre mid post : List (K × V)) (b e : K) (v0 v : V)
    (h : IsSplit l pre mid post b e) (k : K) (hbk : b ≤ k) (hke : k < e) :
    (interval_map.mk v0 (assignResult v0 pre mid post b e v)).lookup k = some v := by
  have hsp := h.sorted_parts
  have hres : assignResult v0 pre mid post b e v
      = (pre ++ (if lastVal v0 pre = v then [] else [(b, v)]))
        ++ ((if lastVal (lastVal v0 pre) mid = v then []
              else [(e, lastVal (lastVal v0 pre) mid)]) ++ post) := by
    simp [assignResult, newMid]
  rw [hres]
  have hQs : sortedKeys (pre ++ (if lastVal v0 pre = v then [] else [(b, v)])) := by
    by_cases h1 : lastVal v0 pre = v
    · simpa [h1] using hsp.1
    · simp only [h1, if_false, sortedKeys, List.pairwise_append]
      exact ⟨hsp.1, by simp, fun x hx y hy => by
        rw [List.mem_singleton.mp hy]; exact h.pre_lt x hx⟩
  have hQ : ∀ q ∈ pre ++ (if lastVal v0 pre = v then [] else [(b, v)]), q.1 ≤ k := by
    intro q hq
    rcases List.mem_append.mp hq with hq1 | hq1
    · exact le_of_lt (lt_of_lt_of_le (h.pre_lt q hq1) hbk)
    · by_cases h1 : lastVal v0 pre = v
      · simp [h1] at hq1
      · simp only [h1, if_false, List.mem_singleton] at hq1
        rw [hq1]; exact hbk
  have hR : ∀ q ∈ (if lastVal (lastVal v0 pre) mid = v then []
      else [(e, lastVal (lastVal v0 pre) mid)]) ++ post, k < q.1 := by
    intro q hq
    rcases List.mem_append.mp hq with hq1 | hq1
    · by_cases h2 : lastVal (lastVal v0 pre) mid = v
      · simp [h2] at hq1
      · simp only [h2, if_false, List.mem_singleton] at hq1
        rw [hq1]; exact hke
    · exact lt_trans hke (h.post_gt q hq1)
  rw [lookup_decomp v0 _ _ k hQs hQ hR, lastVal_append]
  by_cases h1 : lastVal v0 pre = v <;> simp [h1, lastVal]

/-- The lookup below `b` only depends on the entries below `b`. -/
theorem lookup_split_below [LinearOrder K] (l pre X post : List (K × V)) (b e : K) (v0 : V)
    (hbe : b < e) (h : IsSplit l pre X post b e) (k : K) (hk : k < b) :
    (interval_map.mk v0 l).lookup k
      = some (lastVal v0 (pre.filter (fun p => decide (p.1 ≤ k)))) := by
  rw [lookup_eq_lastVal (interval_map.mk v0 l) h.sorted k]
  have hX : X.filter (fun p => decide (p.1 ≤ k)) = [] := by
    rw [List.filter_eq_nil_iff]
    intro q hq
    simpa using lt_of_lt_of_le hk (h.mid_mem q hq).1
  have hpost : post.filter (fun p => decide (p.1 ≤ k)) = [] := by
    rw [List.filter_eq_nil_iff]
    intro q hq
    simpa using lt_trans (lt_trans hk hbe) (h.post_gt q hq)
  show some (lastVal v0 (l.filter _)) = _
  rw [h.eq, List.filter_append, List.filter_append, hX, hpost, List.append_nil, List.append_nil]

/-- The lookup at or above `e` depends on the entries up to `e` only through
the value of the last of them. -/
theorem lookup_split_above [LinearOrder K] (l pre X post : List (K × V)) (b e : K) (v0 : V)
    (hbe : b < e) (h : IsSplit l pre X post b e) (k : K) (hk : e ≤ k) :
    (interval_map.mk v0 l).lookup k
      = some (lastVal (lastVal (lastVal v0 pre) X) (post.filter (fun p => decide (p.1 ≤ k)))) := by
  rw [lookup_eq_lastVal (interval_map.mk v0 l) h.sorted k]
  have hpre : pre.filter (fun p => decide (p.1 ≤ k)) = pre := by
    rw [List.filter_eq_self]
    intro q hq
    simpa using le_of_lt (lt_of_lt_of_le (lt_trans (h.pre_lt q hq) hbe) hk)
  have hX : X.filter (fun p => decide (p.1 ≤ k)) = X := by
    rw [List.filter_eq_self]
    intro q hq
    simpa using le_trans (h.mid_mem q hq).2 hk
  show some (lastVal v0 (l.filter _)) = _
  rw [h.eq, List.filter_append, List.filter_append, hX, hpre, lastVal_append, lastVal_append]

/-- The lookup at a key outside `[b, e)` is the same before and after `assign`. -/
theorem lookup_assignResult_outside [LinearOrder K] [DecidableEq V] (l pre mid post : List (K × V)) (b e : K) (v0 v : V)
    (hbe : b < e) (h : IsSplit l pre mid post b e) (k : K) (hk : k < b ∨ e ≤ k) :
    (interval_map.mk v0 (assignResult v0 pre mid post b e v)).lookup k
      = (interval_map.mk v0 l).lookup k := by
  have hres := isSplit_assignResult l pre mid post b e v0 v hbe h
  rcases hk with hk | hk
  · rw [lookup_split_below _ pre _ post b e v0 hbe hres k hk,
      lookup_split_below _ pre _ post b e v0 hbe h k hk]
  · rw [lookup_split_above _ pre _ post b e v0 hbe hres k hk,
      lookup_split_above _ pre _ post b e v0 hbe h k hk, lastVal_newMid]

/-- The entries left by `assign` are in canonical form when the old ones were. -/
theorem adjDistinct_assignResult [LinearOrder K] [DecidableEq V] (l pre mid post : List (K × V)) (b e : K) (v0 v : V)
    (h : IsSplit l pre mid post b e) (hadj : adjDistinct v0 l) :
    adjDistinct v0 (assignResult v0 pre mid post b e v) := by
  rw [h.eq, adjDistinct_append, adjDistinct_append, lastVal_append] at hadj
  unfold assignResult
  rw [adjDistinct_append, adjDistinct_append, lastVal_append, lastVal_newMid]
  exact ⟨⟨hadj.1.1, adjDistinct_newMid _ _ b e v⟩, hadj.2⟩

/-- Assigning the same interval and value again leaves the entries as they are. -/
theorem assignResult_idem [DecidableEq V] (pre mid post : List (K × V)) (b e : K) (v0 v : V) :
    assignResult v0 pre (newMid (lastVal v0 pre) (lastVal (lastVal v0 pre) mid) b e v) post b e v
      = assignResult v0 pre mid post b e v := by
  unfold assignResult
  rw [lastVal_newMid]

/-- Closed form of `assign` for any split of the stored entries at `[b, e]`. -/
theorem assign_of_isSplit [LinearOrder K] [DecidableEq V] (l pre mid post : List (K × V))
    (b e : K) (v0 v : V) (hbe : b < e) (h : IsSplit l pre mid post b e) :
    (interval_map.mk v0 l).assign b e v
      = some (interval_map.mk v0 (assignResult v0 pre mid post b e v)) := by
  have hd := assign_decomp v0 pre mid post b e v hbe (h.eq ▸ h.sorted) h.pre_lt h.mid_mem
    h.post_gt
  rw [← h.eq] at hd
  exact hd

/-- The lookup at `e` is the value of the last entry with key up to `e`. -/
theorem lookup_at_end [LinearOrder K] (l pre mid post : List (K × V)) (b e : K) (v0 : V)
    (hbe : b < e) (h : IsSplit l pre mid post b e) :
    (interval_map.mk v0 l).lookup e = some (lastVal (lastVal v0 pre) mid) := by
  rw [lookup_split_above l pre mid post b e v0 hbe h e (le_refl e)]
  have hpost : post.filter (fun p => decide (p.1 ≤ e)) = [] := by
    rw [List.filter_eq_nil_iff]
    intro q hq
    simpa using h.post_gt q hq
  rw [hpost]; rfl

/-- The value in force just before `b`, read off the stored entries: the
value of the greatest stored key below `b`, or `m_valBegin`. -/
theorem lastVal_pre_eq [LinearOrder K] (l pre mid post : List (K × V)) (b e : K) (v0 v : V)
    (hbe : b < e) (h : IsSplit l pre mid post b e)
    (hv : (∃ p ∈ l, p.1 < b ∧ (∀ q ∈ l, q.1 < b → q.1 ≤ p.1) ∧ p.2 = v)
      ∨ ((∀ q ∈ l, ¬ q.1 < b) ∧ v0 = v)) :
    lastVal v0 pre = v := by
  have hmem : ∀ q, q ∈ pre → q ∈ l := fun q hq => by
    rw [h.eq]; exact List.mem_append_left _ (List.mem_append_left _ hq)
  rcases hv with ⟨p, hp, hpb, hmax, hpv⟩ | ⟨hnone, hv0⟩
  · have hppre : p ∈ pre := by
      rw [h.eq] at hp
      rcases List.mem_append.mp hp with h1 | h1
      · rcases List.mem_append.mp h1 with h2 | h2
        · exact h2
        · exact absurd hpb (not_lt.mpr (h.mid_mem p h2).1)
      · exact absurd (lt_trans (lt_trans hpb hbe) (h.post_gt p h1)) (lt_irrefl _)
    rw [← hpv]
    exact lastVal_eq_of_greatest pre v0 p h.sorted_parts.1 hppre
      (fun q hq => hmax q (hmem q hq) (h.pre_lt q hq))
  · have : pre = [] := by
      rw [List.eq_nil_iff_forall_not_mem]
      intro q hq
      exact hnone q (hmem q hq) (h.pre_lt q hq)
    rw [this]; exact hv0

theorem collapse_append [DecidableEq V] (d : V) (l1 l2 : List (K × V)) :
    collapse d (l1 ++ l2) = collapse d l1 ++ collapse (lastVal d l1) l2 := by
  induction l1 generalizing d with
  | nil => rfl
  | cons a l1 ih =>
    by_cases ha : a.2 = d <;> simp [collapse, lastVal, ha, ih]

theorem collapse_of_adjDistinct [DecidableEq V] (d : V) (l : List (K × V))
    (h : adjDistinct d l) : collapse d l = l := by
  induction l generalizing d with
  | nil => rfl
  | cons a l ih =>
    have ha : ¬ a.2 = d := fun h1 => h.1 h1.symm
    simp [collapse, ha, ih a.2 h.2]

theorem collapse_pair [DecidableEq V] (vb x : V) (b e : K) (v : V) :
    collapse vb [(b, v), (e, x)] = newMid vb x b e v := by
  unfold newMid
  by_cases h1 : vb = v <;> by_cases h2 : x = v <;> simp [collapse, h1, h2]
  · exact fun h => h1 h.symm
  · exact fun h => h1 h.symm

theorem mem_newMid_cases [DecidableEq V] (vb x : V) (b e : K) (v : V) (q : K × V)
    (hq : q ∈ newMid vb x b e v) : (q = (b, v) ∧ vb ≠ v) ∨ (q = (e, x) ∧ x ≠ v) := by
  unfold newMid at hq
  rcases List.mem_append.mp hq with h | h
  · by_cases h1 : vb = v
    · simp [h1] at h
    · simp only [h1, if_false, List.mem_singleton] at h
      exact Or.inl ⟨h, h1⟩
  · by_cases h2 : x = v
    · simp [h2] at h
    · simp only [h2, if_false, List.mem_singleton] at h
      exact Or.inr ⟨h, h2⟩

/-! ## The contract -/

/-- C1 (interval semantics, inside). For a map in canonical form and keys
`b < e`, the call `assign(b, e, v)` returns, and afterwards `operator[]`
yields `v` at every key `k` with `b <= k < e`. -/
theorem assign_lookup_inside [LinearOrder K] [DecidableEq V] (m : interval_map K V)
    (b e : K) (v : V) (k : K) (hc : m.canonical) (hbe : b < e) (hbk : b ≤ k) (hke : k < e) :
    ∃ m1, m.assign b e v = some m1 ∧ m1.lookup k = some v := by
  refine ⟨_, assign_eq m b e v hbe hc.1, ?_⟩
  exact lookup_assignResult_inside m.m_map _ _ _ b e m.m_valBegin v
    (isSplit_filter m.m_map b e hbe hc.1) k hbk hke

theorem assign_lookup_inside_witness :
    (interval_map.mk 'A' [(1, 'B'), (3, 'C'), (7, 'A')] : interval_map Int Char).canonical
      ∧ (2 : Int) < 5 ∧ (2 : Int) ≤ 4 ∧ (4 : Int) < 5
      ∧ ∃ m1, (interval_map.mk 'A' [(1, 'B'), (3, 'C'), (7, 'A')] : interval_map Int Char).assign
          2 5 'D' = some m1 ∧ m1.lookup 4 = some 'D' :=
  ⟨by decide, by decide, by decide, by decide,
    assign_lookup_inside (interval_map.mk 'A' [(1, 'B'), (3, 'C'), (7, 'A')]) 2 5 'D' 4
      (by decide) (by decide) (by decide) (by decide)⟩

/-- C2 (interval semantics, outside). For a map in canonical form and keys
`b < e`, the call `assign(b, e, v)` returns, and at every key `k` with `k < b`
or `e <= k` (in particular `k = e`) `operator[]` yields the value it yielded
before the call. -/
theorem assign_lookup_outside [LinearOrder K] [DecidableEq V] (m : interval_map K V)
    (b e : K) (v : V) (k : K) (hc : m.canonical) (hbe : b < e) (hk : k < b ∨ e ≤ k) :
    ∃ m1 w, m.assign b e v = some m1 ∧ m.lookup k = some w ∧ m1.lookup k = some w := by
  refine ⟨_, _, assign_eq m b e v hbe hc.1, lookup_eq_lastVal m hc.1 k, ?_⟩
  rw [lookup_assignResult_outside m.m_map _ _ _ b e m.m_valBegin v hbe
    (isSplit_filter m.m_map b e hbe hc.1) k hk]
  exact lookup_eq_lastVal m hc.1 k

theorem assign_lookup_outside_witness :
    (interval_map.mk 'A' [(1, 'B'), (3, 'C'), (7, 'A')] : interval_map Int Char).canonical
      ∧ (2 : Int) < 5 ∧ ((5 : Int) < 2 ∨ (5 : Int) ≤ 5)
      ∧ ∃ m1 w, (interval_map.mk 'A' [(1, 'B'), (3, 'C'), (7, 'A')] : interval_map Int Char).assign
          2 5 'D' = some m1
        ∧ (interval_map.mk 'A' [(1, 'B'), (3, 'C'), (7, 'A')] : interval_map Int Char).lookup 5
            = some w
        ∧ m1.lookup 5 = some w :=
  ⟨by decide, by decide, by decide,
    assign_lookup_outside (interval_map.mk 'A' [(1, 'B'), (3, 'C'), (7, 'A')]) 2 5 'D' 5
      (by decide) (by decide) (by decide)⟩

/-- A call of `assign` on a map in canonical form returns a map in canonical form. -/
theorem assign_canonical_aux [LinearOrder K] [DecidableEq V] (m : interval_map K V)
    (b e : K) (v : V) (hc : m.canonical) :
    ∃ m1, m.assign b e v = some m1 ∧ m1.canonical := by
  by_cases hbe : b < e
  · refine ⟨_, assign_eq m b e v hbe hc.1, ?_, ?_⟩
    · exact (isSplit_assignResult m.m_map _ _ _ b e m.m_valBegin v hbe
        (isSplit_filter m.m_map b e hbe hc.1)).sorted
    · exact adjDistinct_assignResult m.m_map _ _ _ b e m.m_valBegin v
        (isSplit_filter m.m_map b e hbe hc.1) hc.2
  · exact ⟨m, by simp [interval_map.assign, hbe], hc⟩

/-- Every state reachable from the constructor is in canonical form. -/
theorem reachable_canonical_aux [LinearOrder K] [DecidableEq V] (r : interval_map K V)
    (hr : Reachable r) : r.canonical := by
  induction hr with
  | ctor val => exact ⟨List.Pairwise.nil, trivial⟩
  | assign m m1 b e v _ hstep ih =>
    obtain ⟨m2, h2, hc2⟩ := assign_canonical_aux m b e v ih
    rw [h2] at hstep
    cases hstep
    exact hc2

/-- C3 (canonical form is an invariant). The freshly constructed map is in
canonical form; for a map in canonical form and any `b`, `e`, `v` the call
`assign(b, e, v)` returns a map in canonical form (increasing keys, first
stored value different from `m_valBegin`, consecutive stored values
different); hence every state reachable from the constructor by `assign`
calls is in canonical form. -/
theorem canonical_invariant [LinearOrder K] [DecidableEq V] (m : interval_map K V)
    (b e : K) (v val : V) (hc : m.canonical) :
    (interval_map.ctor val : interval_map K V).canonical
      ∧ (∃ m1, m.assign b e v = some m1 ∧ m1.canonical)
      ∧ (∀ r : interval_map K V, Reachable r → r.canonical) :=
  ⟨⟨List.Pairwise.nil, trivial⟩, assign_canonical_aux m b e v hc, reachable_canonical_aux⟩

theorem canonical_invariant_witness :
    (interval_map.mk 'A' [(1, 'B'), (3, 'C'), (7, 'A')] : interval_map Int Char).canonical
      ∧ (interval_map.ctor 'A' : interval_map Int Char).canonical
      ∧ (∃ m1, (interval_map.mk 'A' [(1, 'B'), (3, 'C'), (7, 'A')] : interval_map Int Char).assign
          2 7 'B' = some m1 ∧ m1.canonical)
      ∧ (∀ r : interval_map Int Char, Reachable r → r.canonical) :=
  ⟨by decide,
    canonical_invariant (interval_map.mk 'A' [(1, 'B'), (3, 'C'), (7, 'A')]) 2 7 'B' 'A'
      (by decide)⟩

/-- C4 (lookup is total and equals its reference definition). For stored
entries with strictly increasing keys and any key `k`, `operator[]` returns a
value; it is the value stored under the greatest stored key `<= k`, and it is
`m_valBegin` when no stored key is `<= k` (in particular when nothing is
stored). -/
theorem lookup_reference [LinearOrder K] (m : interval_map K V) (k : K)
    (hs : sortedKeys m.m_map) :
    ∃ w, m.lookup k = some w
      ∧ (∀ p ∈ m.m_map, p.1 ≤ k → (∀ q ∈ m.m_map, q.1 ≤ k → q.1 ≤ p.1) → w = p.2)
      ∧ ((∀ q ∈ m.m_map, ¬ q.1 ≤ k) → w = m.m_valBegin) := by
  refine ⟨_, lookup_eq_lastVal m hs k, ?_, ?_⟩
  · intro p hp hpk hmax
    refine lastVal_eq_of_greatest _ m.m_valBegin p (sortedKeys_filter _ _ hs) ?_ ?_
    · exact List.mem_filter.mpr ⟨hp, by simpa using hpk⟩
    · intro q hq
      have := List.mem_filter.mp hq
      exact hmax q this.1 (by simpa using this.2)
  · intro hnone
    have : m.m_map.filter (fun p => decide (p.1 ≤ k)) = [] := by
      rw [List.filter_eq_nil_iff]
      intro q hq
      simpa using hnone q hq
    rw [this]; rfl

theorem lookup_reference_witness :
    sortedKeys (interval_map.mk 'A' [(1, 'B'), (3, 'C'), (7, 'A')] : interval_map Int Char).m_map
      ∧ ∃ w, (interval_map.mk 'A' [(1, 'B'), (3, 'C'), (7, 'A')] : interval_map Int Char).lookup 4
          = some w
        ∧ (∀ p ∈ (interval_map.mk 'A' [(1, 'B'), (3, 'C'), (7, 'A')] : interval_map Int Char).m_map,
            p.1 ≤ 4 →
            (∀ q ∈ (interval_map.mk 'A' [(1, 'B'), (3, 'C'), (7, 'A')] :
              interval_map Int Char).m_map, q.1 ≤ 4 → q.1 ≤ p.1) → w = p.2)
        ∧ ((∀ q ∈ (interval_map.mk 'A' [(1, 'B'), (3, 'C'), (7, 'A')] :
              interval_map Int Char).m_map, ¬ q.1 ≤ 4) → w = 'A') :=
  ⟨by decide, lookup_reference (interval_map.mk 'A' [(1, 'B'), (3, 'C'), (7, 'A')]) 4 (by decide)⟩

/-- C5 (empty or inverted interval is a silent no-op). When `b < e` does not
hold, `assign(b, e, v)` returns without a fault and leaves `m_valBegin` and
every stored entry as they were, so every lookup is unchanged. -/
theorem assign_empty_interval [LinearOrder K] [DecidableEq V] (m : interval_map K V)
    (b e : K) (v : V) (hbe : ¬ b < e) :
    ∃ m1, m.assign b e v = some m1 ∧ m1 = m ∧ ∀ k, m1.lookup k = m.lookup k :=
  ⟨m, by simp [interval_map.assign, hbe], rfl, fun _ => rfl⟩

theorem assign_empty_interval_witness :
    ¬ (5 : Int) < 5
      ∧ ∃ m1, (interval_map.mk 'A' [(1, 'B'), (5, 'A')] : interval_map Int Char).assign 5 5 'X'
          = some m1
        ∧ m1 = interval_map.mk 'A' [(1, 'B'), (5, 'A')]
        ∧ ∀ k, m1.lookup k
            = (interval_map.mk 'A' [(1, 'B'), (5, 'A')] : interval_map Int Char).lookup k :=
  ⟨by decide, assign_empty_interval (interval_map.mk 'A' [(1, 'B'), (5, 'A')]) 5 5 'X' (by decide)⟩

/-- C6 (idempotence). For a map in canonical form and any `b`, `e`, `v`,
calling `assign(b, e, v)` a second time returns the state the first call
returned (same `m_valBegin`, same stored entries). -/
theorem assign_idempotent [LinearOrder K] [DecidableEq V] (m : interval_map K V)
    (b e : K) (v : V) (hc : m.canonical) :
    ∃ m1, m.assign b e v = some m1 ∧ m1.assign b e v = some m1 := by
  by_cases hbe : b < e
  · have hsplit := isSplit_filter m.m_map b e hbe hc.1
    refine ⟨_, assign_eq m b e v hbe hc.1, ?_⟩
    rw [assign_of_isSplit _ _ _ _ b e m.m_valBegin v hbe
      (isSplit_assignResult m.m_map _ _ _ b e m.m_valBegin v hbe hsplit), assignResult_idem]
  · exact ⟨m, by simp [interval_map.assign, hbe], by simp [interval_map.assign, hbe]⟩

theorem assign_idempotent_witness :
    (interval_map.mk 'A' [(1, 'B'), (3, 'C'), (7, 'A')] : interval_map Int Char).canonical
      ∧ ∃ m1, (interval_map.mk 'A' [(1, 'B'), (3, 'C'), (7, 'A')] : interval_map Int Char).assign
          2 7 'B' = some m1 ∧ m1.assign 2 7 'B' = some m1 :=
  ⟨by decide,
    assign_idempotent (interval_map.mk 'A' [(1, 'B'), (3, 'C'), (7, 'A')]) 2 7 'B' (by decide)⟩

/-- C7 (merge with neighbours). For a map in canonical form and `b < e`, the
call `assign(b, e, v)` returns a map in which (1) `b` is not a stored key if
the value in force just before `b` (that of the greatest stored key below `b`,
or `m_valBegin` when there is none) was `v`, and (2) `e` is not a stored key
if `operator[](e)` was `v` before the call. -/
theorem assign_merge_neighbours [LinearOrder K] [DecidableEq V] (m : interval_map K V)
    (b e : K) (v : V) (hc : m.canonical) (hbe : b < e) :
    ∃ m1, m.assign b e v = some m1
      ∧ (((∃ p ∈ m.m_map, p.1 < b ∧ (∀ q ∈ m.m_map, q.1 < b → q.1 ≤ p.1) ∧ p.2 = v)
            ∨ ((∀ q ∈ m.m_map, ¬ q.1 < b) ∧ m.m_valBegin = v))
          → ∀ q ∈ m1.m_map, q.1 ≠ b)
      ∧ (m.lookup e = some v → ∀ q ∈ m1.m_map, q.1 ≠ e) := by
  have hsplit := isSplit_filter m.m_map b e hbe hc.1
  refine ⟨_, assign_eq m b e v hbe hc.1, ?_, ?_⟩
  · intro hv q hq
    have hvb := lastVal_pre_eq m.m_map _ _ _ b e m.m_valBegin v hbe hsplit hv
    rcases List.mem_append.mp hq with hq1 | hq1
    · rcases List.mem_append.mp hq1 with hq2 | hq2
      · exact ne_of_lt (hsplit.pre_lt q hq2)
      · rcases mem_newMid_cases _ _ b e v q hq2 with ⟨_, hne⟩ | ⟨heq, _⟩
        · exact absurd hvb hne
        · rw [heq]; exact ne_of_gt hbe
    · exact ne_of_gt (lt_trans hbe (hsplit.post_gt q hq1))
  · intro hv q hq
    have hx := lookup_at_end m.m_map _ _ _ b e m.m_valBegin hbe hsplit
    have hxv : lastVal (lastVal m.m_valBegin (List.filter (fun p => decide (p.1 < b)) m.m_map))
        (List.filter (fun p => decide (b ≤ p.1 ∧ p.1 ≤ e)) m.m_map) = v := by
      have : m.lookup e = (interval_map.mk m.m_valBegin m.m_map).lookup e := rfl
      rw [this, hx] at hv
      exact Option.some.inj hv
    rcases List.mem_append.mp hq with hq1 | hq1
    · rcases List.mem_append.mp hq1 with hq2 | hq2
      · exact ne_of_lt (lt_trans (hsplit.pre_lt q hq2) hbe)
      · rcases mem_newMid_cases _ _ b e v q hq2 with ⟨heq, _⟩ | ⟨_, hne⟩
        · rw [heq]; exact ne_of_lt hbe
        · exact absurd hxv hne
    · exact ne_of_gt (hsplit.post_gt q hq1)

theorem assign_merge_neighbours_witness :
    (interval_map.mk 'A' [(1, 'B'), (3, 'C'), (7, 'B')] : interval_map Int Char).canonical
      ∧ (2 : Int) < 7
      ∧ ∃ m1, (interval_map.mk 'A' [(1, 'B'), (3, 'C'), (7, 'B')] : interval_map Int Char).assign
          2 7 'B' = some m1
        ∧ (∀ q ∈ m1.m_map, q.1 ≠ 2) ∧ (∀ q ∈ m1.m_map, q.1 ≠ 7) :=
  ⟨by decide, by decide,
    Exists.elim
      (assign_merge_neighbours (interval_map.mk 'A' [(1, 'B'), (3, 'C'), (7, 'B')]) 2 7 'B'
        (by decide) (by decide))
      (fun m1 h => ⟨m1, h.1, h.2.1 (by decide), h.2.2 (by decide)⟩)⟩

/-- C8 (the in-place scan equals rebuild-and-collapse). For a map in canonical
form and `b < e`, the stored entries after `assign(b, e, v)` are the old
entries with key below `b`, then `(b, v)`, then `(e, x)` with `x` the old
`operator[](e)`, then the old entries with key above `e`, with every entry
dropped whose value equals the value of the entry (or `m_valBegin`)
immediately before it. -/
theorem assign_eq_rebuild_collapse [LinearOrder K] [DecidableEq V] (m : interval_map K V)
    (b e : K) (v : V) (hc : m.canonical) (hbe : b < e) :
    ∃ x, m.lookup e = some x
      ∧ m.assign b e v
        = some (interval_map.mk m.m_valBegin
            (collapse m.m_valBegin (rebuild m.m_map b e v x))) := by
  have hsplit := isSplit_filter m.m_map b e hbe hc.1
  refine ⟨_, lookup_at_end m.m_map _ _ _ b e m.m_valBegin hbe hsplit, ?_⟩
  rw [assign_eq m b e v hbe hc.1]
  have hadj := hc.2
  rw [hsplit.eq, adjDistinct_append, adjDistinct_append, lastVal_append] at hadj
  unfold rebuild assignResult
  rw [collapse_append, collapse_append, collapse_of_adjDistinct _ _ hadj.1.1, collapse_pair,
    lastVal_append]
  have hlast : ∀ (vb x : V), lastVal vb [(b, v), (e, x)] = x := fun _ _ => rfl
  rw [hlast, collapse_of_adjDistinct _ _ hadj.2]

theorem assign_eq_rebuild_collapse_witness :
    (interval_map.mk 'A' [(1, 'B'), (3, 'C'), (7, 'A')] : interval_map Int Char).canonical
      ∧ (2 : Int) < 7
      ∧ ∃ x, (interval_map.mk 'A' [(1, 'B'), (3, 'C'), (7, 'A')] : interval_map Int Char).lookup 7
          = some x
        ∧ (interval_map.mk 'A' [(1, 'B'), (3, 'C'), (7, 'A')] : interval_map Int Char).assign
            2 7 'B'
          = some (interval_map.mk 'A'
              (collapse 'A' (rebuild [(1, 'B'), (3, 'C'), (7, 'A')] 2 7 'B' x))) :=
  ⟨by decide, by decide,
    assign_eq_rebuild_collapse (interval_map.mk 'A' [(1, 'B'), (3, 'C'), (7, 'A')]) 2 7 'B'
      (by decide) (by decide)⟩

/-- C9 (construction yields the constant function). The map built by the
constructor from `val` has `m_valBegin = val` and no stored entries, and
`operator[]` returns `val` at every key. -/
theorem ctor_constant [LinearOrder K] (val : V) :
    (interval_map.ctor val : interval_map K V).m_valBegin = val
      ∧ (interval_map.ctor val : interval_map K V).m_map = []
      ∧ ∀ k : K, (interval_map.ctor val : interval_map K V).lookup k = some val :=
  ⟨rfl, rfl, fun _ => rfl⟩

/-- C10 (the baseline never changes). For stored entries with increasing keys
and any `b`, `e`, `v`, the call `assign(b, e, v)` returns a map whose
`m_valBegin` is the one before the call. -/
theorem assign_valBegin [LinearOrder K] [DecidableEq V] (m : interval_map K V)
    (b e : K) (v : V) (hs : sortedKeys m.m_map) :
    ∃ m1, m.assign b e v = some m1 ∧ m1.m_valBegin = m.m_valBegin := by
  by_cases hbe : b < e
  · exact ⟨_, assign_eq m b e v hbe hs, rfl⟩
  · exact ⟨m, by simp [interval_map.assign, hbe], rfl⟩

theorem assign_valBegin_witness :
    sortedKeys (interval_map.mk 'A' [(1, 'B'), (3, 'B'), (7, 'A')] : interval_map Int Char).m_map
      ∧ ∃ m1, (interval_map.mk 'A' [(1, 'B'), (3, 'B'), (7, 'A')] : interval_map Int Char).assign
          0 4 'A' = some m1 ∧ m1.m_valBegin = 'A' :=
  ⟨by decide,
    assign_valBegin (interval_map.mk 'A' [(1, 'B'), (3, 'B'), (7, 'A')]) 0 4 'A' (by decide)⟩

/-! ## Uniqueness of the canonical form; assign seen through the lookup -/

theorem filter_le_nil_of_lt [LinearOrder K] (l : List (K × V)) (k : K)
    (h : ∀ q ∈ l, k < q.1) : l.filter (fun p => decide (p.1 ≤ k)) = [] := by
  rw [List.filter_eq_nil_iff]
  intro q hq
  simpa using h q hq

/-- The value in force at the key of the first stored entry is that entry's value. -/
theorem lastVal_filter_head [LinearOrder K] (v0 : V) (a : K × V) (l : List (K × V))
    (hs : sortedKeys (a :: l)) :
    lastVal v0 ((a :: l).filter (fun p => decide (p.1 ≤ a.1))) = a.2 := by
  have hsa := List.pairwise_cons.mp hs
  rw [List.filter_cons_of_pos (by simp), lastVal, filter_le_nil_of_lt l a.1 hsa.1]
  rfl

/-- The value in force below the key of the first stored entry is `v0`. -/
theorem lastVal_filter_below_head [LinearOrder K] (v0 : V) (a : K × V) (l : List (K × V))
    (k : K) (hs : sortedKeys (a :: l)) (hk : k < a.1) :
    lastVal v0 ((a :: l).filter (fun p => decide (p.1 ≤ k))) = v0 := by
  have hsa := List.pairwise_cons.mp hs
  rw [filter_le_nil_of_lt (a :: l) k (by
    intro q hq
    rcases List.mem_cons.mp hq with h | h
    · rw [h]; exact hk
    · exact lt_trans hk (hsa.1 q h))]
  rfl

/-- Two lists of entries with increasing keys and no repeated adjacent value
that give the same value at every key are equal. -/
theorem adjDistinct_unique [LinearOrder K] (l1 : List (K × V)) :
    ∀ (l2 : List (K × V)) (v0 : V), sortedKeys l1 → sortedKeys l2 →
      adjDistinct v0 l1 → adjDistinct v0 l2 →
      (∀ k : K, lastVal v0 (l1.filter (fun p => decide (p.1 ≤ k)))
        = lastVal v0 (l2.filter (fun p => decide (p.1 ≤ k)))) →
      l1 = l2 := by
  induction l1 with
  | nil =>
    intro l2 v0 _ hs2 _ ha2 hval
    cases l2 with
    | nil => rfl
    | cons c r2 =>
      have h := hval c.1
      rw [lastVal_filter_head v0 c r2 hs2] at h
      exact absurd h ha2.1
  | cons a r1 ih =>
    intro l2 v0 hs1 hs2 ha1 ha2 hval
    cases l2 with
    | nil =>
      have h := hval a.1
      rw [lastVal_filter_head v0 a r1 hs1] at h
      exact absurd h.symm ha1.1
    | cons c r2 =>
      have hsa := List.pairwise_cons.mp hs1
      have hsc := List.pairwise_cons.mp hs2
      have hkey : a.1 = c.1 := by
        rcases lt_trichotomy a.1 c.1 with hlt | heq | hgt
        · have h := hval a.1
          rw [lastVal_filter_head v0 a r1 hs1, lastVal_filter_below_head v0 c r2 a.1 hs2 hlt] at h
          exact absurd h.symm ha1.1
        · exact heq
        · have h := hval c.1
          rw [lastVal_filter_head v0 c r2 hs2, lastVal_filter_below_head v0 a r1 c.1 hs1 hgt] at h
          exact absurd h ha2.1
      have hvalue : a.2 = c.2 := by
        have h := hval a.1
        rw [lastVal_filter_head v0 a r1 hs1] at h
        rw [hkey, lastVal_filter_head v0 c r2 hs2] at h
        exact h
      have hac : a = c := Prod.ext hkey hvalue
      subst hac
      have htail : r1 = r2 := by
        apply ih r2 a.2 hsa.2 hsc.2 ha1.2 ha2.2
        intro k
        by_cases hk : a.1 ≤ k
        · have h := hval k
          rw [List.filter_cons_of_pos (by simpa using hk),
            List.filter_cons_of_pos (by simpa using hk)] at h
          exact h
        · have hk1 : k < a.1 := not_le.mp hk
          rw [filter_le_nil_of_lt r1 k (fun q hq => lt_trans hk1 (hsa.1 q hq)),
            filter_le_nil_of_lt r2 k (fun q hq => lt_trans hk1 (hsc.1 q hq))]
      rw [htail]

/-- Canonical maps with the same `m_valBegin` and the same lookups store the
same entries. -/
theorem canonical_unique_aux [LinearOrder K] (m1 m2 : interval_map K V)
    (hc1 : m1.canonical) (hc2 : m2.canonical) (hb : m1.m_valBegin = m2.m_valBegin)
    (hl : ∀ k : K, m1.lookup k = m2.lookup k) : m1.m_map = m2.m_map := by
  apply adjDistinct_unique m1.m_map m2.m_map m1.m_valBegin hc1.1 hc2.1 hc1.2 (hb ▸ hc2.2)
  intro k
  have h := hl k
  rw [lookup_eq_lastVal m1 hc1.1 k, lookup_eq_lastVal m2 hc2.1 k, ← hb] at h
  exact Option.some.inj h

/-- What a call of `assign` does to a map in canonical form, seen through
`operator[]`: the call returns a canonical map with the old `m_valBegin` that
yields `v` on `[b, e)` and the old value elsewhere. -/
theorem assign_spec_aux [LinearOrder K] [DecidableEq V] (m : interval_map K V)
    (b e : K) (v : V) (hc : m.canonical) :
    ∃ m1, m.assign b e v = some m1 ∧ m1.canonical ∧ m1.m_valBegin = m.m_valBegin
      ∧ ∀ k : K, m1.lookup k = if b ≤ k ∧ k < e then some v else m.lookup k := by
  by_cases hbe : b < e
  · have hsplit := isSplit_filter m.m_map b e hbe hc.1
    refine ⟨_, assign_eq m b e v hbe hc.1, ⟨?_, ?_⟩, rfl, ?_⟩
    · exact (isSplit_assignResult m.m_map _ _ _ b e m.m_valBegin v hbe hsplit).sorted
    · exact adjDistinct_assignResult m.m_map _ _ _ b e m.m_valBegin v hsplit hc.2
    · intro k
      by_cases hk : b ≤ k ∧ k < e
      · rw [if_pos hk]
        exact lookup_assignResult_inside m.m_map _ _ _ b e m.m_valBegin v hsplit k hk.1 hk.2
      · rw [if_neg hk]
        have hout : k < b ∨ e ≤ k := by
          by_cases h1 : b ≤ k
          · exact Or.inr (not_lt.mp (fun h2 => hk ⟨h1, h2⟩))
          · exact Or.inl (not_le.mp h1)
        exact lookup_assignResult_outside m.m_map _ _ _ b e m.m_valBegin v hbe hsplit k hout
  · refine ⟨m, by simp [interval_map.assign, hbe], hc, rfl, ?_⟩
    intro k
    rw [if_neg (fun hk => hbe (lt_of_le_of_lt hk.1 hk.2))]

/-- Maps in canonical form with the same `m_valBegin` and the same lookups are equal. -/
theorem canonical_ext_aux [LinearOrder K] (m1 m2 : interval_map K V)
    (hc1 : m1.canonical) (hc2 : m2.canonical) (hb : m1.m_valBegin = m2.m_valBegin)
    (hl : ∀ k : K, m1.lookup k = m2.lookup k) : m1 = m2 := by
  have hm := canonical_unique_aux m1 m2 hc1 hc2 hb hl
  cases m1; cases m2
  simp only [interval_map.mk.injEq]
  exact ⟨hb, hm⟩

theorem mem_newMid_begin [DecidableEq V] (vb x : V) (b e : K) (v : V) (h : vb ≠ v) :
    (b, v) ∈ newMid vb x b e v := by
  unfold newMid
  simp [h]

theorem mem_newMid_end [DecidableEq V] (vb x : V) (b e : K) (v : V) (h : x ≠ v) :
    (e, x) ∈ newMid vb x b e v := by
  unfold newMid
  simp [h]

theorem length_newMid_le [DecidableEq V] (vb x : V) (b e : K) (v : V) :
    (newMid vb x b e v).length ≤ 2 := by
  unfold newMid
  by_cases h1 : vb = v <;> by_cases h2 : x = v <;> simp [h1, h2]

/-- Closed form of `assign` with the two neighbouring values named: `vb` in
force just before `b` and `x` returned by `operator[](e)`. -/
theorem assign_eq_named [LinearOrder K] [DecidableEq V] (m : interval_map K V)
    (b e : K) (v vb x : V) (hs : sortedKeys m.m_map) (hbe : b < e)
    (hvb : (∃ p ∈ m.m_map, p.1 < b ∧ (∀ q ∈ m.m_map, q.1 < b → q.1 ≤ p.1) ∧ p.2 = vb)
      ∨ ((∀ q ∈ m.m_map, ¬ q.1 < b) ∧ m.m_valBegin = vb))
    (hx : m.lookup e = some x) :
    m.assign b e v = some (interval_map.mk m.m_valBegin
      (m.m_map.filter (fun p => decide (p.1 < b)) ++ newMid vb x b e v
        ++ m.m_map.filter (fun p => decide (e < p.1)))) := by
  have hsplit := isSplit_filter m.m_map b e hbe hs
  have h1 := lastVal_pre_eq m.m_map _ _ _ b e m.m_valBegin vb hbe hsplit hvb
  have h2 := lookup_at_end m.m_map _ _ _ b e m.m_valBegin hbe hsplit
  have h3 : m.lookup e = (interval_map.mk m.m_valBegin m.m_map).lookup e := rfl
  rw [h3, h2] at hx
  have h4 := Option.some.inj hx
  rw [assign_eq m b e v hbe hs]
  unfold assignResult
  rw [h4, h1]

/-! ## The passes of the loop -/

/-- A call of `assign` that reaches the loop is the loop run from `assign_entry`. -/
theorem assign_unfold_loop [LinearOrder K] [DecidableEq V] (m : interval_map K V)
    (b e : K) (v : V) (hbe : b < e) (hne : m.m_map.isEmpty = false)
    (hlb : StdMap.lower_bound m.m_map b ≠ Iter.pastEnd) :
    m.assign b e v = (assign_entry m b v).bind (fun sw =>
      (assign_loop m.m_valBegin b e v sw.2 (StdMap.upper_bound m.m_map e)
        (m.m_map.length + 1) sw.1).map (fun result => interval_map.mk m.m_valBegin result)) := by
  unfold interval_map.assign assign_entry
  simp only [hbe, not_true_eq_false, if_false, hne, Bool.false_eq_true, hlb]
  cases (if StdMap.lower_bound m.m_map b ≠ StdMap.begin m.m_map then
      (StdMap.dec m.m_map (StdMap.lower_bound m.m_map b)).bind
        (fun itTmp => StdMap.addrSecond m.m_map itTmp)
    else some ValPtr.valBegin) with
  | none => rfl
  | some ptr =>
    simp only [Option.some_bind]
    cases derefPtr m.m_valBegin m.m_map ptr with
    | none => rfl
    | some pv => rfl

/-- The loop returns what the returning pass returns once the advancing passes
before it fit into the fuel. -/
theorem assign_loop_of_advance [LinearOrder K] [DecidableEq V] (v0 : V) (b e : K) (val : V)
    (wb : Bool) (itEnd : Iter K) (n : Nat) :
    ∀ (fuel : Nat) (s s1 : LoopState K V) (result : List (K × V)),
      assign_advance v0 b e val wb itEnd n s = some s1 →
      assign_body v0 b e val wb itEnd s1 = some (Sum.inl result) →
      n < fuel → assign_loop v0 b e val wb itEnd fuel s = some result := by
  induction n with
  | zero =>
    intro fuel s s1 result hadv hret hfuel
    obtain ⟨f, rfl⟩ : ∃ f, fuel = f + 1 := ⟨fuel - 1, by omega⟩
    simp only [assign_advance, Option.some.injEq] at hadv
    subst hadv
    simp only [assign_loop, hret]
  | succ n ih =>
    intro fuel s s1 result hadv hret hfuel
    obtain ⟨f, rfl⟩ : ∃ f, fuel = f + 1 := ⟨fuel - 1, by omega⟩
    rw [assign_advance] at hadv
    rw [assign_loop]
    cases hbody : assign_body v0 b e val wb itEnd s with
    | none => rw [hbody] at hadv; simp at hadv
    | some r =>
      cases r with
      | inl res => rw [hbody] at hadv; simp at hadv
      | inr s2 =>
        rw [hbody] at hadv
        simp only at hadv ⊢
        exact ih f s2 s1 result hadv hret (by omega)

theorem assign_advance_add [LinearOrder K] [DecidableEq V] (v0 : V) (b e : K) (val : V)
    (wb : Bool) (itEnd : Iter K) (i j : Nat) :
    ∀ s : LoopState K V, assign_advance v0 b e val wb itEnd (i + j) s
      = (assign_advance v0 b e val wb itEnd i s).bind
          (fun s1 => assign_advance v0 b e val wb itEnd j s1) := by
  induction i with
  | zero => intro s; simp [assign_advance]
  | succ i ih =>
    intro s
    rw [Nat.succ_add, assign_advance, assign_advance]
    cases hbody : assign_body v0 b e val wb itEnd s with
    | none => rfl
    | some r =>
      cases r with
      | inl res => rfl
      | inr s2 => exact ih s2

theorem exists_split_at (l : List (K × V)) :
    ∀ j : Nat, 1 ≤ j → j ≤ l.length → ∃ d q t, l = d ++ q :: t ∧ d.length + 1 = j := by
  induction l with
  | nil => intro j h1 h2; simp at h2; omega
  | cons a l ih =>
    intro j h1 h2
    rcases Nat.lt_or_ge 1 j with h | h
    · obtain ⟨d, q, t, hl, hd⟩ := ih (j - 1) (by omega) (by simp at h2; omega)
      exact ⟨a :: d, q, t, by rw [hl]; rfl, by simp; omega⟩
    · exact ⟨[], a, l, rfl, by simp; omega⟩

theorem position_append_begin [LinearOrder K] (X Y : List (K × V))
    (h : ∀ x ∈ X, ∀ y ∈ Y, x.1 < y.1) :
    StdMap.position (X ++ Y) (StdMap.begin Y) = X.length := by
  cases Y with
  | nil => simp [StdMap.begin, StdMap.position]
  | cons y Y =>
    induction X with
    | nil => simp [StdMap.begin, StdMap.position]
    | cons a X ih =>
      have ha : a.1 ≠ y.1 := ne_of_lt (h a (List.mem_cons_self _ _) y (List.mem_cons_self _ _))
      have := ih (fun x hx => h x (List.mem_cons_of_mem _ hx))
      simp only [StdMap.begin] at this ⊢
      rw [List.cons_append, StdMap.position, if_neg ha, this, List.length_cons]

/-- From a state reached after visiting `p`, with the entries `d`, then `q`,
then `t` still to visit, `d.length + 1` further passes erase `p` and `d` and
arrive after `q`. -/
theorem assign_advance_chain [LinearOrder K] [DecidableEq V] (v0 : V) (b e : K) (val : V)
    (wb : Bool) (pre post : List (K × V)) (q : K × V) (t : List (K × V))
    (hpre : ∀ x ∈ pre, x.1 < b) (hpost : ∀ x ∈ post, e < x.1) (d : List (K × V)) :
    ∀ p : K × V, b ≤ p.1 → sortedKeys (p :: (d ++ q :: t)) →
      (∀ x ∈ p :: (d ++ q :: t), x.1 ≤ e) →
      assign_advance v0 b e val wb (StdMap.begin post) (d.length + 1)
          (LoopState.mk (pre ++ p :: ((d ++ q :: t) ++ post))
            (StdMap.begin ((d ++ q :: t) ++ post)) (ValPtr.second p.1) true)
        = some (LoopState.mk (pre ++ q :: (t ++ post)) (StdMap.begin (t ++ post))
            (ValPtr.second q.1) true) := by
  have hstep : ∀ (p c : K × V) (rest : List (K × V)), b ≤ p.1 → sortedKeys (p :: c :: rest) →
      (∀ x ∈ p :: c :: rest, x.1 ≤ e) →
      assign_body v0 b e val wb (StdMap.begin post)
          (LoopState.mk (pre ++ p :: ((c :: rest) ++ post)) (StdMap.begin ((c :: rest) ++ post))
            (ValPtr.second p.1) true)
        = some (Sum.inr (LoopState.mk (pre ++ c :: (rest ++ post)) (StdMap.begin (rest ++ post))
            (ValPtr.second c.1) true)) := by
    intro p c rest hbp hs hle
    have hs1 := List.pairwise_cons.mp hs
    have hs2 := List.pairwise_cons.mp hs1.2
    have hce : c.1 ≤ e := hle c (List.mem_cons_of_mem _ (List.mem_cons_self _ _))
    exact assign_body_advance v0 b e val wb pre (rest ++ post) p c (StdMap.begin post)
      (ValPtr.second p.1) (fun x hx => lt_of_lt_of_le (hpre x hx) hbp)
      (hs1.1 c (List.mem_cons_self _ _))
      (by
        intro x hx
        rcases List.mem_append.mp hx with h | h
        · exact hs2.1 x h
        · exact lt_of_le_of_lt hce (hpost x h))
      (begin_ne_of_lt post c.1 (fun x hx => lt_of_le_of_lt hce (hpost x hx)))
  induction d with
  | nil =>
    intro p hbp hs hle
    have hbody := hstep p q t hbp hs hle
    simp only [List.nil_append, List.length_nil, Nat.zero_add] at hbody ⊢
    rw [assign_advance, hbody]
    rfl
  | cons c d ih =>
    intro p hbp hs hle
    have hs1 := List.pairwise_cons.mp hs
    have hbody := hstep p c (d ++ q :: t) hbp hs hle
    have hnext := ih c (le_trans hbp (le_of_lt (hs1.1 c (List.mem_cons_self _ _)))) hs1.2
      (fun x hx => hle x (List.mem_cons_of_mem _ hx))
    rw [List.length_cons, assign_advance]
    simp only [List.cons_append] at hbody ⊢
    rw [hbody]
    exact hnext

/-- From the entry state, `d.length + 1` passes arrive after the entry `q`
that follows the first `d.length` entries of `[b, e]`. -/
theorem assign_advance_from_entry [LinearOrder K] [DecidableEq V] (v0 : V) (b e : K) (val : V)
    (wb : Bool) (pre post : List (K × V)) (ptr : ValPtr K) (d : List (K × V)) (q : K × V)
    (t : List (K × V)) (hpre : ∀ x ∈ pre, x.1 < b) (hpost : ∀ x ∈ post, e < x.1)
    (hs : sortedKeys (d ++ q :: t)) (hmid : ∀ x ∈ d ++ q :: t, b ≤ x.1 ∧ x.1 ≤ e) :
    assign_advance v0 b e val wb (StdMap.begin post) (d.length + 1)
        (LoopState.mk (pre ++ ((d ++ q :: t) ++ post)) (StdMap.begin ((d ++ q :: t) ++ post))
          ptr false)
      = some (LoopState.mk (pre ++ q :: (t ++ post)) (StdMap.begin (t ++ post))
          (ValPtr.second q.1) true) := by
  have hfirst : ∀ (c : K × V) (rest : List (K × V)), b ≤ c.1 → c.1 ≤ e →
      assign_body v0 b e val wb (StdMap.begin post)
          (LoopState.mk (pre ++ ((c :: rest) ++ post)) (StdMap.begin ((c :: rest) ++ post))
            ptr false)
        = some (Sum.inr (LoopState.mk (pre ++ c :: (rest ++ post)) (StdMap.begin (rest ++ post))
            (ValPtr.second c.1) true)) := by
    intro c rest hbc hce
    exact assign_body_first v0 b e val wb pre (rest ++ post) c (StdMap.begin post) ptr
      (fun x hx => lt_of_lt_of_le (hpre x hx) hbc)
      (begin_ne_of_lt post c.1 (fun x hx => lt_of_le_of_lt hce (hpost x hx)))
  cases d with
  | nil =>
    have hq := hmid q (by simp)
    have hbody := hfirst q t hq.1 hq.2
    simp only [List.nil_append, List.length_nil, Nat.zero_add] at hbody ⊢
    rw [assign_advance, hbody]
    rfl
  | cons c d =>
    have hc := hmid c (by simp)
    have hbody := hfirst c (d ++ q :: t) hc.1 hc.2
    have hchain := assign_advance_chain v0 b e val wb pre post q t hpre hpost d c hc.1 hs
      (fun x hx => (hmid x hx).2)
    rw [List.length_cons, assign_advance]
    simp only [List.cons_append] at hbody ⊢
    rw [hbody]
    exact hchain

/-- A pass of the loop body that finds `itBegin == itEnd` does not advance. -/
theorem assign_body_at_end [LinearOrder K] [DecidableEq V] (v0 : V) (b e : K) (val : V)
    (wb : Bool) (itEnd : Iter K) (s s1 : LoopState K V) (h : s.itBegin = itEnd) :
    assign_body v0 b e val wb itEnd s ≠ some (Sum.inr s1) := by
  unfold assign_body
  rw [if_pos h]
  cases derefPtr v0 s.m_map s.prevVal with
  | none => simp
  | some pv =>
    simp only [Option.some_bind]
    split
    · cases (if (s.wipePrev && (StdMap.emplace s.m_map e pv).2.2
          && (StdMap.emplace s.m_map e pv).2.1 != StdMap.begin (StdMap.emplace s.m_map e pv).1)
          = true then
          (erasePrev (StdMap.emplace s.m_map e pv).1 (StdMap.emplace s.m_map e pv).2.1).map
            (fun r => r.1)
        else some (StdMap.emplace s.m_map e pv).1) with
      | none => simp
      | some m2 => simp
    · cases (if s.wipePrev = true then (erasePrev s.m_map s.itBegin).map (fun r => r.1)
          else some s.m_map) with
      | none => simp
      | some m2 => simp

/-- No advancing pass follows a state with `itBegin == itEnd`. -/
theorem assign_advance_at_end [LinearOrder K] [DecidableEq V] (v0 : V) (b e : K) (val : V)
    (wb : Bool) (itEnd : Iter K) (s : LoopState K V) (h : s.itBegin = itEnd) (k : Nat) :
    assign_advance v0 b e val wb itEnd (k + 1) s = none := by
  rw [assign_advance]
  cases hbody : assign_body v0 b e val wb itEnd s with
  | none => rfl
  | some r =>
    cases r with
    | inl res => rfl
    | inr s1 => exact absurd hbody (assign_body_at_end v0 b e val wb itEnd s s1 h)

/-- The entry state of the loop for stored entries split at `[b, e]`, when
some stored key is not below `b`. -/
theorem assign_entry_eq [LinearOrder K] [DecidableEq V] (v0 : V) (l pre mid post : List (K × V))
    (b e : K) (val : V) (hbe : b < e) (h : IsSplit l pre mid post b e)
    (hne : mid ++ post ≠ []) :
    ∃ ptr : ValPtr K,
      assign_entry (interval_map.mk v0 l) b val
        = some (LoopState.mk (pre ++ (mid ++ post)) (StdMap.begin (mid ++ post)) ptr false,
            !(decide (lastVal v0 pre = val)))
      ∧ ∀ tail : List (K × V), derefPtr v0 (pre ++ tail) ptr = some (lastVal v0 pre) := by
  obtain ⟨c, rest, hc⟩ : ∃ c rest, mid ++ post = c :: rest := by
    cases hmp : mid ++ post with
    | nil => exact absurd hmp hne
    | cons c rest => exact ⟨c, rest, rfl⟩
  have hcb : b ≤ c.1 := by
    have hmem : c ∈ mid ++ post := by rw [hc]; exact List.mem_cons_self _ _
    rcases List.mem_append.mp hmem with h1 | h1
    · exact (h.mid_mem c h1).1
    · exact le_of_lt (lt_trans hbe (h.post_gt c h1))
  have hprec : ∀ x ∈ pre, x.1 < c.1 := fun x hx => lt_of_lt_of_le (h.pre_lt x hx) hcb
  have hl : l = pre ++ c :: rest := by rw [h.eq, List.append_assoc, hc]
  have hlb : StdMap.lower_bound (pre ++ c :: rest) b = Iter.node c.1 := by
    have hall : ∀ x ∈ c :: rest, b ≤ x.1 := by
      intro x hx
      rw [← hc] at hx
      rcases List.mem_append.mp hx with h1 | h1
      · exact (h.mid_mem x h1).1
      · exact le_of_lt (lt_trans hbe (h.post_gt x h1))
    exact lower_bound_append pre (c :: rest) b h.pre_lt hall
  obtain ⟨ptr, hptr, hderef⟩ := prevVal_init v0 pre rest c h.sorted_parts.1 hprec
  refine ⟨ptr, ?_, hderef⟩
  have hb : StdMap.begin (c :: rest) = Iter.node c.1 := rfl
  rw [hc, hl, hb]
  unfold assign_entry
  simp only [hlb, hptr, Option.some_bind, hderef (c :: rest)]

/-- After all entries of `[b, e]` were visited the loop is at `itEnd`. -/
theorem assign_advance_all [LinearOrder K] [DecidableEq V] (v0 : V) (b e : K) (val : V)
    (wb : Bool) (pre mid post : List (K × V)) (ptr : ValPtr K)
    (hpre : ∀ x ∈ pre, x.1 < b) (hpost : ∀ x ∈ post, e < x.1)
    (hs : sortedKeys mid) (hmid : ∀ x ∈ mid, b ≤ x.1 ∧ x.1 ≤ e) :
    ∃ s, assign_advance v0 b e val wb (StdMap.begin post) mid.length
          (LoopState.mk (pre ++ (mid ++ post)) (StdMap.begin (mid ++ post)) ptr false) = some s
      ∧ s.itBegin = StdMap.begin post
      ∧ ((mid = [] ∧ s = LoopState.mk (pre ++ post) (StdMap.begin post) ptr false)
        ∨ ∃ d q, mid = d ++ [q]
            ∧ s = LoopState.mk (pre ++ q :: post) (StdMap.begin post) (ValPtr.second q.1) true) := by
  rcases List.eq_nil_or_concat mid with hnil | ⟨d, q, hcat⟩
  · subst hnil
    exact ⟨_, rfl, rfl, Or.inl ⟨rfl, rfl⟩⟩
  · rw [List.concat_eq_append] at hcat
    subst hcat
    have h := assign_advance_from_entry v0 b e val wb pre post ptr d q [] hpre hpost hs hmid
    rw [List.length_append, List.length_singleton]
    exact ⟨_, h, rfl, Or.inr ⟨d, q, rfl, rfl⟩⟩

/-- Every state the loop reaches: the entry state, or the state after the
visit of an entry `q` of `[b, e]`, the entries `t` after `q` still to visit. -/
theorem assign_advance_reached [LinearOrder K] [DecidableEq V] (v0 : V) (b e : K) (val : V)
    (wb : Bool) (pre mid post : List (K × V)) (ptr : ValPtr K)
    (hpre : ∀ x ∈ pre, x.1 < b) (hpost : ∀ x ∈ post, e < x.1)
    (hs : sortedKeys mid) (hmid : ∀ x ∈ mid, b ≤ x.1 ∧ x.1 ≤ e)
    (j : Nat) (s : LoopState K V)
    (hadv : assign_advance v0 b e val wb (StdMap.begin post) j
      (LoopState.mk (pre ++ (mid ++ post)) (StdMap.begin (mid ++ post)) ptr false) = some s) :
    (j = 0 ∧ s = LoopState.mk (pre ++ (mid ++ post)) (StdMap.begin (mid ++ post)) ptr false)
      ∨ ∃ d q t, mid = d ++ q :: t ∧ d.length + 1 = j
          ∧ s = LoopState.mk (pre ++ q :: (t ++ post)) (StdMap.begin (t ++ post))
              (ValPtr.second q.1) true := by
  rcases Nat.eq_zero_or_pos j with hj | hj
  · subst hj
    simp only [assign_advance, Option.some.injEq] at hadv
    exact Or.inl ⟨rfl, hadv.symm⟩
  · rcases Nat.lt_or_ge mid.length j with hgt | hle
    · exfalso
      obtain ⟨sn, hn, hend, _⟩ :=
        assign_advance_all v0 b e val wb pre mid post ptr hpre hpost hs hmid
      obtain ⟨k, hk⟩ : ∃ k, j = mid.length + (k + 1) := ⟨j - mid.length - 1, by omega⟩
      rw [hk, assign_advance_add, hn, Option.some_bind,
        assign_advance_at_end v0 b e val wb (StdMap.begin post) sn hend k] at hadv
      simp at hadv
    · obtain ⟨d, q, t, hsplit, hd⟩ := exists_split_at mid j hj hle
      subst hsplit
      have h := assign_advance_from_entry v0 b e val wb pre post ptr d q t hpre hpost hs hmid
      rw [hd, hadv] at h
      exact Or.inr ⟨d, q, t, rfl, hd, Option.some.inj h⟩

theorem begin_eq_pastEnd_iff (l : List (K × V)) : StdMap.begin l = Iter.pastEnd ↔ l = [] := by
  cases l <;> simp [StdMap.begin]

/-- The bounds of the scan for stored entries split at `[b, e]`. -/
theorem bounds_of_isSplit [LinearOrder K] (l pre mid post : List (K × V)) (b e : K)
    (hbe : b < e) (h : IsSplit l pre mid post b e) :
    StdMap.lower_bound l b = StdMap.begin (mid ++ post)
      ∧ StdMap.upper_bound l e = StdMap.begin post
      ∧ StdMap.position l (StdMap.begin (mid ++ post)) = pre.length
      ∧ StdMap.position l (StdMap.begin post) = pre.length + mid.length := by
  have hs : sortedKeys (pre ++ mid ++ post) := h.eq ▸ h.sorted
  have hs1 := List.pairwise_append.mp hs
  have hs2 : sortedKeys (pre ++ (mid ++ post)) := by rw [← List.append_assoc]; exact hs
  have hs3 := List.pairwise_append.mp hs2
  have hl1 : l = pre ++ (mid ++ post) := by rw [h.eq, List.append_assoc]
  refine ⟨?_, ?_, ?_, ?_⟩
  · rw [hl1]
    apply lower_bound_append pre (mid ++ post) b h.pre_lt
    intro x hx
    rcases List.mem_append.mp hx with h1 | h1
    · exact (h.mid_mem x h1).1
    · exact le_of_lt (lt_trans hbe (h.post_gt x h1))
  · rw [h.eq]
    apply upper_bound_append (pre ++ mid) post e _ h.post_gt
    intro x hx
    rcases List.mem_append.mp hx with h1 | h1
    · exact le_of_lt (lt_trans (h.pre_lt x h1) hbe)
    · exact (h.mid_mem x h1).2
  · rw [hl1]
    exact position_append_begin pre (mid ++ post) hs3.2.2
  · rw [h.eq, position_append_begin (pre ++ mid) post hs1.2.2, List.length_append]

/-- Safety of the loop for stored entries split at `[b, e]`: the entry state
exists, and at every state the loop reaches the next pass is defined and, once
`wipePrev` is set, `itBegin` has an entry before it. -/
theorem assign_loop_safe_split [LinearOrder K] [DecidableEq V] (v0 : V)
    (l pre mid post : List (K × V)) (b e : K) (val : V) (hbe : b < e)
    (h : IsSplit l pre mid post b e) (hne : mid ++ post ≠ []) :
    ∃ s0 wb, assign_entry (interval_map.mk v0 l) b val = some (s0, wb)
      ∧ ∀ j s, assign_advance v0 b e val wb (StdMap.upper_bound l e) j s0 = some s →
          (∃ r, assign_body v0 b e val wb (StdMap.upper_bound l e) s = some r)
          ∧ (s.wipePrev = true → ∃ r, erasePrev s.m_map s.itBegin = some r) := by
  obtain ⟨ptr, hentry, hderef⟩ := assign_entry_eq v0 l pre mid post b e val hbe h hne
  have hub := (bounds_of_isSplit l pre mid post b e hbe h).2.1
  have hsm := h.sorted_parts.2.1
  refine ⟨_, _, hentry, ?_⟩
  rw [hub]
  intro j s hadv
  rcases assign_advance_reached v0 b e val _ pre mid post ptr h.pre_lt h.post_gt hsm h.mid_mem
    j s hadv with ⟨_, hs0⟩ | ⟨d, q, t, hmid, _, hsq⟩
  · subst hs0
    refine ⟨?_, fun hw => absurd hw (by simp)⟩
    cases mid with
    | nil =>
      exact ⟨_, assign_body_return_nowipe v0 b e val pre post ptr (lastVal v0 pre) hbe h.pre_lt
        h.post_gt (hderef post)⟩
    | cons c rest =>
      have hc := h.mid_mem c (List.mem_cons_self _ _)
      exact ⟨_, assign_body_first v0 b e val _ pre (rest ++ post) c (StdMap.begin post) ptr
        (fun x hx => lt_of_lt_of_le (h.pre_lt x hx) hc.1)
        (begin_ne_of_lt post c.1 (fun x hx => lt_of_le_of_lt hc.2 (h.post_gt x hx)))⟩
  · subst hsq
    subst hmid
    have hq := h.mid_mem q (by simp)
    have hsq : sortedKeys (q :: t) := (List.pairwise_append.mp hsm).2.1
    have hsq1 := List.pairwise_cons.mp hsq
    have hpreq : ∀ x ∈ pre, x.1 < q.1 := fun x hx => lt_of_lt_of_le (h.pre_lt x hx) hq.1
    have htp : ∀ x ∈ t ++ post, q.1 < x.1 := by
      intro x hx
      rcases List.mem_append.mp hx with h1 | h1
      · exact hsq1.1 x h1
      · exact lt_of_le_of_lt hq.2 (h.post_gt x h1)
    refine ⟨?_, fun _ => ⟨_, erasePrev_begin pre (t ++ post) q hpreq htp⟩⟩
    cases t with
    | nil =>
      exact ⟨_, assign_body_return_wipe v0 b e val _ pre post q hbe h.pre_lt hq.1 hq.2 h.post_gt⟩
    | cons c t1 =>
      have hc := h.mid_mem c (by simp)
      have hsc := List.pairwise_cons.mp hsq1.2
      exact ⟨_, assign_body_advance v0 b e val _ pre (t1 ++ post) q c (StdMap.begin post)
        (ValPtr.second q.1) hpreq (hsq1.1 c (List.mem_cons_self _ _))
        (by
          intro x hx
          rcases List.mem_append.mp hx with h1 | h1
          · exact hsc.1 x h1
          · exact lt_of_le_of_lt hc.2 (h.post_gt x h1))
        (begin_ne_of_lt post c.1 (fun x hx => lt_of_le_of_lt hc.2 (h.post_gt x hx)))⟩

/-- The run of the loop for stored entries split at `[b, e]`: one advancing
pass per entry of `mid`, never beyond `itEnd`, then the returning pass. -/
theorem assign_loop_run_split [LinearOrder K] [DecidableEq V] (v0 : V)
    (l pre mid post : List (K × V)) (b e : K) (val : V) (hbe : b < e)
    (h : IsSplit l pre mid post b e) (hne : mid ++ post ≠ []) :
    ∃ s0 wb, assign_entry (interval_map.mk v0 l) b val = some (s0, wb)
      ∧ (∀ j, j ≤ mid.length →
          ∃ sj, assign_advance v0 b e val wb (StdMap.upper_bound l e) j s0 = some sj
            ∧ StdMap.position sj.m_map sj.itBegin
                ≤ StdMap.position sj.m_map (StdMap.upper_bound l e))
      ∧ ∃ s result, assign_advance v0 b e val wb (StdMap.upper_bound l e) mid.length s0 = some s
          ∧ s.itBegin = StdMap.upper_bound l e
          ∧ assign_body v0 b e val wb (StdMap.upper_bound l e) s = some (Sum.inl result)
          ∧ (interval_map.mk v0 l).assign b e val = some (interval_map.mk v0 result) := by
  obtain ⟨ptr, hentry, hderef⟩ := assign_entry_eq v0 l pre mid post b e val hbe h hne
  obtain ⟨hlb, hub, hpos1, hpos2⟩ := bounds_of_isSplit l pre mid post b e hbe h
  have hsm := h.sorted_parts.2.1
  have hl1 : l = pre ++ (mid ++ post) := by rw [h.eq, List.append_assoc]
  refine ⟨_, _, hentry, ?_, ?_⟩
  · intro j hj
    rw [hub]
    rcases Nat.eq_zero_or_pos j with hj0 | hj0
    · subst hj0
      refine ⟨_, rfl, ?_⟩
      show StdMap.position (pre ++ (mid ++ post)) (StdMap.begin (mid ++ post))
        ≤ StdMap.position (pre ++ (mid ++ post)) (StdMap.begin post)
      rw [← hl1, hpos1, hpos2]
      omega
    · obtain ⟨d, q, t, hsplit, hd⟩ := exists_split_at mid j hj0 hj
      subst hsplit
      have hadv := assign_advance_from_entry v0 b e val (!(decide (lastVal v0 pre = val)))
        pre post ptr d q t h.pre_lt h.post_gt hsm h.mid_mem
      rw [hd] at hadv
      refine ⟨_, hadv, ?_⟩
      have hq := h.mid_mem q (by simp)
      have hsq : sortedKeys (q :: t) := (List.pairwise_append.mp hsm).2.1
      have hsq1 := List.pairwise_cons.mp hsq
      have hp1 : StdMap.position ((pre ++ [q]) ++ (t ++ post)) (StdMap.begin (t ++ post))
          = (pre ++ [q]).length := by
        apply position_append_begin
        intro x hx y hy
        have hqy : q.1 < y.1 := by
          rcases List.mem_append.mp hy with h1 | h1
          · exact hsq1.1 y h1
          · exact lt_of_le_of_lt hq.2 (h.post_gt y h1)
        rcases List.mem_append.mp hx with h1 | h1
        · exact lt_trans (lt_of_lt_of_le (h.pre_lt x h1) hq.1) hqy
        · rw [List.mem_singleton.mp h1]; exact hqy
      have hp2 : StdMap.position ((pre ++ q :: t) ++ post) (StdMap.begin post)
          = (pre ++ q :: t).length := by
        apply position_append_begin
        intro x hx y hy
        rcases List.mem_append.mp hx with h1 | h1
        · exact lt_trans (lt_trans (h.pre_lt x h1) hbe) (h.post_gt y hy)
        · exact lt_of_le_of_lt (h.mid_mem x (List.mem_append_right _ h1)).2 (h.post_gt y hy)
      simp only [List.append_assoc, List.singleton_append, List.cons_append,
        List.nil_append] at hp1 hp2
      show StdMap.position (pre ++ q :: (t ++ post)) (StdMap.begin (t ++ post))
        ≤ StdMap.position (pre ++ q :: (t ++ post)) (StdMap.begin post)
      rw [hp1, hp2]
      simp
  · obtain ⟨s, hadv, hend, hcases⟩ := assign_advance_all v0 b e val
      (!(decide (lastVal v0 pre = val))) pre mid post ptr h.pre_lt h.post_gt hsm h.mid_mem
    have hbody : ∃ result, assign_body v0 b e val (!(decide (lastVal v0 pre = val)))
        (StdMap.begin post) s = some (Sum.inl result) := by
      rcases hcases with ⟨_, hs⟩ | ⟨d, q, hmid, hs⟩
      · rw [hs]
        exact ⟨_, assign_body_return_nowipe v0 b e val pre post ptr (lastVal v0 pre) hbe
          h.pre_lt h.post_gt (hderef post)⟩
      · rw [hs]
        have hq := h.mid_mem q (by rw [hmid]; simp)
        exact ⟨_, assign_body_return_wipe v0 b e val _ pre post q hbe h.pre_lt hq.1 hq.2
          h.post_gt⟩
    obtain ⟨result, hret⟩ := hbody
    rw [hub]
    refine ⟨s, result, hadv, hend, hret, ?_⟩
    have hempty : (interval_map.mk v0 l).m_map.isEmpty = false := by
      show l.isEmpty = false
      rw [hl1]
      cases hmp : mid ++ post with
      | nil => exact absurd hmp hne
      | cons c rest => cases pre <;> rfl
    have hlbne : StdMap.lower_bound (interval_map.mk v0 l).m_map b ≠ Iter.pastEnd := by
      show StdMap.lower_bound l b ≠ Iter.pastEnd
      rw [hlb]
      exact fun hb => hne ((begin_eq_pastEnd_iff _).mp hb)
    have hlen : mid.length < l.length + 1 := by
      rw [hl1]; simp only [List.length_append]; omega
    have hloop := assign_loop_of_advance v0 b e val (!(decide (lastVal v0 pre = val)))
      (StdMap.begin post) mid.length (l.length + 1) _ s result hadv hret hlen
    rw [assign_unfold_loop (interval_map.mk v0 l) b e val hbe hempty hlbne, hentry]
    show Option.map _ (assign_loop v0 b e val _ (StdMap.upper_bound l e) (l.length + 1) _) = _
    rw [hub, ← hl1]
    rw [← hl1] at hloop
    simp only [hloop, Option.map_some']

/-! ## The contract, continued -/

/-- C11 (canonical form is a unique representation). Two maps in canonical
form with the same `m_valBegin` on which `operator[]` returns equal values at
every key have identical stored key/value sequences. -/
theorem canonical_unique [LinearOrder K] (m1 m2 : interval_map K V)
    (hc1 : m1.canonical) (hc2 : m2.canonical) (hb : m1.m_valBegin = m2.m_valBegin)
    (hl : ∀ k : K, m1.lookup k = m2.lookup k) : m1.m_map = m2.m_map :=
  canonical_unique_aux m1 m2 hc1 hc2 hb hl

theorem canonical_unique_witness :
    (interval_map.mk 'A' [(1, 'B'), (5, 'A')] : interval_map Int Char).canonical
      ∧ (interval_map.mk 'A' [(1, 'B'), (5, 'A')] : interval_map Int Char).canonical
      ∧ (interval_map.mk 'A' [(1, 'B'), (5, 'A')] : interval_map Int Char).m_valBegin
          = (interval_map.mk 'A' [(1, 'B'), (5, 'A')] : interval_map Int Char).m_valBegin
      ∧ (∀ k : Int, (interval_map.mk 'A' [(1, 'B'), (5, 'A')] : interval_map Int Char).lookup k
          = (interval_map.mk 'A' [(1, 'B'), (5, 'A')] : interval_map Int Char).lookup k)
      ∧ (interval_map.mk 'A' [(1, 'B'), (5, 'A')] : interval_map Int Char).m_map
          = (interval_map.mk 'A' [(1, 'B'), (5, 'A')] : interval_map Int Char).m_map :=
  ⟨by decide, by decide, rfl, fun _ => rfl,
    canonical_unique (interval_map.mk 'A' [(1, 'B'), (5, 'A')])
      (interval_map.mk 'A' [(1, 'B'), (5, 'A')]) (by decide) (by decide) rfl (fun _ => rfl)⟩

/-- C12 (exact contents of the affected neighbourhood). For a map in canonical
form and `b < e`, with `vb` the value of the greatest old stored key below `b`
(or `m_valBegin` when there is none) and `x` the old `operator[](e)`: after
`assign(b, e, v)` no stored key lies strictly between `b` and `e`; `b` is a
stored key exactly when `vb` differs from `v`, and then maps to `v`; `e` is a
stored key exactly when `x` differs from `v`, and then maps to `x`. -/
theorem assign_neighbourhood [LinearOrder K] [DecidableEq V] (m : interval_map K V)
    (b e : K) (v vb x : V) (hc : m.canonical) (hbe : b < e)
    (hvb : (∃ p ∈ m.m_map, p.1 < b ∧ (∀ q ∈ m.m_map, q.1 < b → q.1 ≤ p.1) ∧ p.2 = vb)
      ∨ ((∀ q ∈ m.m_map, ¬ q.1 < b) ∧ m.m_valBegin = vb))
    (hx : m.lookup e = some x) :
    ∃ m1, m.assign b e v = some m1
      ∧ (∀ q ∈ m1.m_map, ¬ (b < q.1 ∧ q.1 < e))
      ∧ ((∃ q ∈ m1.m_map, q.1 = b) ↔ vb ≠ v)
      ∧ (∀ q ∈ m1.m_map, q.1 = b → q.2 = v)
      ∧ ((∃ q ∈ m1.m_map, q.1 = e) ↔ x ≠ v)
      ∧ (∀ q ∈ m1.m_map, q.1 = e → q.2 = x) := by
  have hsplit := isSplit_filter m.m_map b e hbe hc.1
  have hmem : ∀ q ∈ m.m_map.filter (fun p => decide (p.1 < b)) ++ newMid vb x b e v
      ++ m.m_map.filter (fun p => decide (e < p.1)),
      q.1 < b ∨ (q = (b, v) ∧ vb ≠ v) ∨ (q = (e, x) ∧ x ≠ v) ∨ e < q.1 := by
    intro q hq
    rcases List.mem_append.mp hq with hq1 | hq1
    · rcases List.mem_append.mp hq1 with hq2 | hq2
      · exact Or.inl (hsplit.pre_lt q hq2)
      · rcases mem_newMid_cases vb x b e v q hq2 with h | h
        · exact Or.inr (Or.inl h)
        · exact Or.inr (Or.inr (Or.inl h))
    · exact Or.inr (Or.inr (Or.inr (hsplit.post_gt q hq1)))
  refine ⟨_, assign_eq_named m b e v vb x hc.1 hbe hvb hx, ?_, ?_, ?_, ?_, ?_⟩
  · intro q hq hin
    rcases hmem q hq with h | ⟨h, _⟩ | ⟨h, _⟩ | h
    · exact absurd (lt_trans h hin.1) (lt_irrefl _)
    · rw [h] at hin; exact absurd hin.1 (lt_irrefl _)
    · rw [h] at hin; exact absurd hin.2 (lt_irrefl _)
    · exact absurd (lt_trans h hin.2) (lt_irrefl _)
  · constructor
    · rintro ⟨q, hq, hqb⟩
      rcases hmem q hq with h | ⟨_, h⟩ | ⟨h, _⟩ | h
      · rw [hqb] at h; exact absurd h (lt_irrefl _)
      · exact h
      · rw [h] at hqb; exact absurd (show e = b from hqb) (ne_of_gt hbe)
      · rw [hqb] at h; exact absurd (lt_trans h hbe) (lt_irrefl _)
    · intro hne
      exact ⟨(b, v), List.mem_append_left _ (List.mem_append_right _
        (mem_newMid_begin vb x b e v hne)), rfl⟩
  · intro q hq hqb
    rcases hmem q hq with h | ⟨h, _⟩ | ⟨h, _⟩ | h
    · rw [hqb] at h; exact absurd h (lt_irrefl _)
    · rw [h]
    · rw [h] at hqb; exact absurd (show e = b from hqb) (ne_of_gt hbe)
    · rw [hqb] at h; exact absurd (lt_trans h hbe) (lt_irrefl _)
  · constructor
    · rintro ⟨q, hq, hqe⟩
      rcases hmem q hq with h | ⟨h, _⟩ | ⟨_, h⟩ | h
      · rw [hqe] at h; exact absurd (lt_trans h hbe) (lt_irrefl _)
      · rw [h] at hqe; exact absurd (show b = e from hqe) (ne_of_lt hbe)
      · exact h
      · rw [hqe] at h; exact absurd h (lt_irrefl _)
    · intro hne
      exact ⟨(e, x), List.mem_append_left _ (List.mem_append_right _
        (mem_newMid_end vb x b e v hne)), rfl⟩
  · intro q hq hqe
    rcases hmem q hq with h | ⟨h, _⟩ | ⟨h, _⟩ | h
    · rw [hqe] at h; exact absurd (lt_trans h hbe) (lt_irrefl _)
    · rw [h] at hqe; exact absurd (show b = e from hqe) (ne_of_lt hbe)
    · rw [h]
    · rw [hqe] at h; exact absurd h (lt_irrefl _)

theorem assign_neighbourhood_witness :
    (interval_map.mk 'A' [(1, 'B'), (3, 'C'), (7, 'A')] : interval_map Int Char).canonical
      ∧ (2 : Int) < 5
      ∧ ∃ m1, (interval_map.mk 'A' [(1, 'B'), (3, 'C'), (7, 'A')] : interval_map Int Char).assign
          2 5 'B' = some m1
        ∧ (∀ q ∈ m1.m_map, ¬ (2 < q.1 ∧ q.1 < 5))
        ∧ ((∃ q ∈ m1.m_map, q.1 = 2) ↔ 'B' ≠ 'B')
        ∧ (∀ q ∈ m1.m_map, q.1 = 2 → q.2 = 'B')
        ∧ ((∃ q ∈ m1.m_map, q.1 = 5) ↔ 'C' ≠ 'B')
        ∧ (∀ q ∈ m1.m_map, q.1 = 5 → q.2 = 'C') :=
  ⟨by decide, by decide,
    assign_neighbourhood (interval_map.mk 'A' [(1, 'B'), (3, 'C'), (7, 'A')]) 2 5 'B' 'B' 'C'
      (by decide) (by decide) (by decide) (by decide)⟩

/-- C13 (re-assigning a value that already covers the range changes nothing).
For a map in canonical form and `b < e`, if `operator[]` yields `v` at every
key of `[b, e)`, then `assign(b, e, v)` returns a map with the same stored
key/value sequence. -/
theorem assign_covered_noop [LinearOrder K] [DecidableEq V] (m : interval_map K V)
    (b e : K) (v : V) (hc : m.canonical) (_hbe : b < e)
    (hcover : ∀ k : K, b ≤ k → k < e → m.lookup k = some v) :
    ∃ m1, m.assign b e v = some m1 ∧ m1.m_map = m.m_map := by
  obtain ⟨m1, h1, hc1, hb1, hl1⟩ := assign_spec_aux m b e v hc
  refine ⟨m1, h1, canonical_unique_aux m1 m hc1 hc hb1 ?_⟩
  intro k
  rw [hl1 k]
  by_cases hk : b ≤ k ∧ k < e
  · rw [if_pos hk, hcover k hk.1 hk.2]
  · rw [if_neg hk]

theorem assign_covered_noop_witness :
    (interval_map.mk 'A' [(1, 'B'), (5, 'A')] : interval_map Int Char).canonical
      ∧ (2 : Int) < 3
      ∧ (∀ k : Int, 2 ≤ k → k < 3 →
          (interval_map.mk 'A' [(1, 'B'), (5, 'A')] : interval_map Int Char).lookup k = some 'B')
      ∧ ∃ m1, (interval_map.mk 'A' [(1, 'B'), (5, 'A')] : interval_map Int Char).assign 2 3 'B'
          = some m1 ∧ m1.m_map = [(1, 'B'), (5, 'A')] :=
  have hcover : ∀ k : Int, 2 ≤ k → k < 3 →
      (interval_map.mk 'A' [(1, 'B'), (5, 'A')] : interval_map Int Char).lookup k = some 'B' := by
    intro k h1 h2
    have hk : k = 2 := by omega
    rw [hk]
    decide
  ⟨by decide, by decide, hcover,
    assign_covered_noop (interval_map.mk 'A' [(1, 'B'), (5, 'A')]) 2 3 'B'
      (by decide) (by decide) hcover⟩

/-- Collapse when the value in force at `e` is the baseline: for a map in
canonical form and `b < e` such that every stored key lies in `[b, e)` and
`operator[](e)` is `m_valBegin`, the call `assign(b, e, m_valBegin)` leaves no
stored entries. -/
theorem assign_collapse_aux [LinearOrder K] [DecidableEq V] (m : interval_map K V)
    (b e : K) (hc : m.canonical) (hbe : b < e)
    (hkeys : ∀ q ∈ m.m_map, b ≤ q.1 ∧ q.1 < e)
    (hlast : m.lookup e = some m.m_valBegin) :
    ∃ m1, m.assign b e m.m_valBegin = some m1 ∧ m1.m_map = []
      ∧ ∀ k : K, m1.lookup k = some m.m_valBegin := by
  have hpre : m.m_map.filter (fun p => decide (p.1 < b)) = [] := by
    rw [List.filter_eq_nil_iff]
    intro q hq
    simpa using (hkeys q hq).1
  have hpost : m.m_map.filter (fun p => decide (e < p.1)) = [] := by
    rw [List.filter_eq_nil_iff]
    intro q hq
    simpa using le_of_lt (hkeys q hq).2
  have h := assign_eq_named m b e m.m_valBegin m.m_valBegin m.m_valBegin hc.1 hbe
    (Or.inr ⟨fun q hq => not_lt.mpr (hkeys q hq).1, rfl⟩) hlast
  rw [hpre, hpost] at h
  have hmid : newMid m.m_valBegin m.m_valBegin b e m.m_valBegin = [] := by simp [newMid]
  rw [hmid] at h
  exact ⟨_, h, rfl, fun _ => rfl⟩

/-- A call of `assign` does not change the value of the last stored entry
(or the baseline, when nothing is stored): that value is in force above
every key the call can name. -/
theorem lastVal_assignResult [DecidableEq V] (v0 : V) (pre mid post : List (K × V))
    (b e : K) (v : V) :
    lastVal v0 (assignResult v0 pre mid post b e v) = lastVal v0 (pre ++ mid ++ post) := by
  unfold assignResult
  rw [lastVal_append, lastVal_append, lastVal_newMid, lastVal_append, lastVal_append]

/-- In every state reachable from the constructor the last stored value is
`m_valBegin`: the constructor stores nothing, and `assign` keeps the value in
force above `keyEnd`. -/
theorem reachable_lastVal_aux [LinearOrder K] [DecidableEq V] (r : interval_map K V)
    (hr : Reachable r) : lastVal r.m_valBegin r.m_map = r.m_valBegin := by
  induction hr with
  | ctor val => rfl
  | assign m m1 b e v hm hstep ih =>
    have hc := reachable_canonical_aux m hm
    by_cases hbe : b < e
    · have hsplit := isSplit_filter m.m_map b e hbe hc.1
      rw [assign_eq m b e v hbe hc.1] at hstep
      rw [← Option.some.inj hstep]
      show lastVal m.m_valBegin (assignResult _ _ _ _ b e v) = m.m_valBegin
      rw [lastVal_assignResult, ← hsplit.eq]
      exact ih
    · have h0 : m.assign b e v = some m := by simp [interval_map.assign, hbe]
      rw [h0] at hstep
      rw [← Option.some.inj hstep]
      exact ih

/-- C14 (collapse back to the baseline). For every map the constructor and
`assign` calls can produce (each is in canonical form) and all `b < e` such
that every stored key lies in `[b, e)`, the call `assign(b, e, m_valBegin)`
returns a map with no stored entries, so `operator[]` yields `m_valBegin` at
every key. -/
theorem assign_collapse_to_baseline [LinearOrder K] [DecidableEq V] (m : interval_map K V)
    (b e : K) (hr : Reachable m) (hbe : b < e)
    (hkeys : ∀ q ∈ m.m_map, b ≤ q.1 ∧ q.1 < e) :
    m.canonical
      ∧ ∃ m1, m.assign b e m.m_valBegin = some m1 ∧ m1.m_map = []
          ∧ ∀ k : K, m1.lookup k = some m.m_valBegin := by
  have hc := reachable_canonical_aux m hr
  have hall : m.m_map.filter (fun p => decide (p.1 ≤ e)) = m.m_map := by
    rw [List.filter_eq_self]
    intro q hq
    simpa using le_of_lt (hkeys q hq).2
  have hlast : m.lookup e = some m.m_valBegin := by
    rw [lookup_eq_lastVal m hc.1 e, hall, reachable_lastVal_aux m hr]
  exact ⟨hc, assign_collapse_aux m b e hc hbe hkeys hlast⟩

theorem assign_collapse_to_baseline_witness :
    Reachable (interval_map.mk 'A' [(1, 'B'), (5, 'A')] : interval_map Int Char)
      ∧ (0 : Int) < 10
      ∧ (∀ q ∈ (interval_map.mk 'A' [(1, 'B'), (5, 'A')] : interval_map Int Char).m_map,
          0 ≤ q.1 ∧ q.1 < 10)
      ∧ (interval_map.mk 'A' [(1, 'B'), (5, 'A')] : interval_map Int Char).canonical
      ∧ ∃ m1, (interval_map.mk 'A' [(1, 'B'), (5, 'A')] : interval_map Int Char).assign 0 10 'A'
          = some m1 ∧ m1.m_map = [] ∧ ∀ k : Int, m1.lookup k = some 'A' :=
  have hr : Reachable (interval_map.mk 'A' [(1, 'B'), (5, 'A')] : interval_map Int Char) :=
    Reachable.assign (interval_map.ctor 'A') _ 1 5 'B' (Reachable.ctor 'A') (by decide)
  ⟨hr, by decide, by decide,
    assign_collapse_to_baseline (interval_map.mk 'A' [(1, 'B'), (5, 'A')]) 0 10 hr
      (by decide) (by decide)⟩

/-- Canonical form alone is not enough for the collapse: the entries
`[(1, 'B')]` over baseline `'A'` are canonical but no sequence of calls
produces them, and there `assign(0, 5, 'A')` leaves `(5, 'B')`. -/
theorem collapse_needs_reachable :
    (interval_map.mk 'A' [(1, 'B')] : interval_map Int Char).canonical
      ∧ ¬ Reachable (interval_map.mk 'A' [(1, 'B')] : interval_map Int Char)
      ∧ (interval_map.mk 'A' [(1, 'B')] : interval_map Int Char).assign 0 5 'A'
          = some (interval_map.mk 'A' [(5, 'B')]) := by
  refine ⟨by decide, ?_, by decide⟩
  intro hr
  have h := reachable_lastVal_aux _ hr
  exact absurd h (by decide)

/-- C15 (assign only touches the closed key range `[b, e]`). For stored
entries with strictly increasing keys and `b < e`, the call `assign(b, e, v)`
returns; every old entry with key below `b` or above `e` is still stored with
its value; every stored key afterwards is an old stored key or `b` or `e`;
and at most two entries are added. -/
theorem assign_frame [LinearOrder K] [DecidableEq V] (m : interval_map K V)
    (b e : K) (v : V) (hs : sortedKeys m.m_map) (hbe : b < e) :
    ∃ m1, m.assign b e v = some m1
      ∧ (∀ p ∈ m.m_map, (p.1 < b ∨ e < p.1) → p ∈ m1.m_map)
      ∧ (∀ q ∈ m1.m_map, (∃ p ∈ m.m_map, p.1 = q.1) ∨ q.1 = b ∨ q.1 = e)
      ∧ m1.m_map.length ≤ m.m_map.length + 2 := by
  have hsplit := isSplit_filter m.m_map b e hbe hs
  refine ⟨_, assign_eq m b e v hbe hs, ?_, ?_, ?_⟩
  · intro p hp hout
    show p ∈ assignResult _ _ _ _ b e v
    unfold assignResult
    rcases hout with h | h
    · exact List.mem_append_left _ (List.mem_append_left _
        (List.mem_filter.mpr ⟨hp, by simpa using h⟩))
    · exact List.mem_append_right _ (List.mem_filter.mpr ⟨hp, by simpa using h⟩)
  · intro q hq
    have hq1 : q ∈ assignResult m.m_valBegin (m.m_map.filter (fun p => decide (p.1 < b)))
        (m.m_map.filter (fun p => decide (b ≤ p.1 ∧ p.1 ≤ e)))
        (m.m_map.filter (fun p => decide (e < p.1))) b e v := hq
    unfold assignResult at hq1
    rcases List.mem_append.mp hq1 with h1 | h1
    · rcases List.mem_append.mp h1 with h2 | h2
      · exact Or.inl ⟨q, (List.mem_filter.mp h2).1, rfl⟩
      · rcases mem_newMid_cases _ _ b e v q h2 with ⟨h, _⟩ | ⟨h, _⟩
        · exact Or.inr (Or.inl (by rw [h]))
        · exact Or.inr (Or.inr (by rw [h]))
    · exact Or.inl ⟨q, (List.mem_filter.mp h1).1, rfl⟩
  · have hlen := congrArg List.length hsplit.eq
    rw [List.length_append, List.length_append] at hlen
    show (assignResult _ _ _ _ b e v).length ≤ _
    unfold assignResult
    rw [List.length_append, List.length_append, hlen]
    have := length_newMid_le (lastVal m.m_valBegin (m.m_map.filter (fun p => decide (p.1 < b))))
      (lastVal (lastVal m.m_valBegin (m.m_map.filter (fun p => decide (p.1 < b))))
        (m.m_map.filter (fun p => decide (b ≤ p.1 ∧ p.1 ≤ e)))) b e v
    omega

theorem assign_frame_witness :
    sortedKeys (interval_map.mk 'A' [(1, 'B'), (3, 'B'), (7, 'A')] : interval_map Int Char).m_map
      ∧ (4 : Int) < 6
      ∧ ∃ m1, (interval_map.mk 'A' [(1, 'B'), (3, 'B'), (7, 'A')] : interval_map Int Char).assign
          4 6 'C' = some m1
        ∧ (∀ p ∈ (interval_map.mk 'A' [(1, 'B'), (3, 'B'), (7, 'A')] :
              interval_map Int Char).m_map, (p.1 < 4 ∨ 6 < p.1) → p ∈ m1.m_map)
        ∧ (∀ q ∈ m1.m_map, (∃ p ∈ (interval_map.mk 'A' [(1, 'B'), (3, 'B'), (7, 'A')] :
              interval_map Int Char).m_map, p.1 = q.1) ∨ q.1 = 4 ∨ q.1 = 6)
        ∧ m1.m_map.length
            ≤ (interval_map.mk 'A' [(1, 'B'), (3, 'B'), (7, 'A')] :
                interval_map Int Char).m_map.length + 2 :=
  ⟨by decide, by decide,
    assign_frame (interval_map.mk 'A' [(1, 'B'), (3, 'B'), (7, 'A')]) 4 6 'C'
      (by decide) (by decide)⟩

/-- C16 (last writer wins on a covering interval). For a map in canonical form,
`b < e`, and any `b1`, `e1`, `v1` with `b <= b1` and `e1 <= e`, the calls
`assign(b1, e1, v1)` and then `assign(b, e, v)` return the state that
`assign(b, e, v)` alone returns. -/
theorem assign_covering_wins [LinearOrder K] [DecidableEq V] (m : interval_map K V)
    (b e b1 e1 : K) (v v1 : V) (hc : m.canonical) (_hbe : b < e) (hb : b ≤ b1) (he : e1 ≤ e) :
    ∃ m1 m2, m.assign b1 e1 v1 = some m1 ∧ m1.assign b e v = some m2
      ∧ m.assign b e v = some m2 := by
  obtain ⟨m1, h1, hc1, hv1, hl1⟩ := assign_spec_aux m b1 e1 v1 hc
  obtain ⟨m2, h2, hc2, hv2, hl2⟩ := assign_spec_aux m1 b e v hc1
  obtain ⟨m3, h3, hc3, hv3, hl3⟩ := assign_spec_aux m b e v hc
  have heq : m3 = m2 := by
    apply canonical_ext_aux m3 m2 hc3 hc2 (by rw [hv3, hv2, hv1])
    intro k
    rw [hl3 k, hl2 k]
    by_cases hk : b ≤ k ∧ k < e
    · rw [if_pos hk, if_pos hk]
    · rw [if_neg hk, if_neg hk, hl1 k]
      have hk1 : ¬ (b1 ≤ k ∧ k < e1) :=
        fun h => hk ⟨le_trans hb h.1, lt_of_lt_of_le h.2 he⟩
      rw [if_neg hk1]
  exact ⟨m1, m2, h1, h2, heq ▸ h3⟩

theorem assign_covering_wins_witness :
    (interval_map.mk 'A' [(1, 'B'), (3, 'C'), (7, 'A')] : interval_map Int Char).canonical
      ∧ (2 : Int) < 8 ∧ (2 : Int) ≤ 3 ∧ (5 : Int) ≤ 8
      ∧ ∃ m1 m2, (interval_map.mk 'A' [(1, 'B'), (3, 'C'), (7, 'A')] :
            interval_map Int Char).assign 3 5 'D' = some m1
        ∧ m1.assign 2 8 'B' = some m2
        ∧ (interval_map.mk 'A' [(1, 'B'), (3, 'C'), (7, 'A')] : interval_map Int Char).assign
            2 8 'B' = some m2 :=
  ⟨by decide, by decide, by decide, by decide,
    assign_covering_wins (interval_map.mk 'A' [(1, 'B'), (3, 'C'), (7, 'A')]) 2 8 3 5 'B' 'D'
      (by decide) (by decide) (by decide) (by decide)⟩

/-- C17 (assignments to disjoint intervals commute). For a map in canonical
form and `b1 < e1 <= b2 < e2`, the calls `assign(b1, e1, v1)` then
`assign(b2, e2, v2)` return the state that the calls in the opposite order
return; the touching case `e1 = b2` and the case `v1 = v2` are included. -/
theorem assign_disjoint_commute [LinearOrder K] [DecidableEq V] (m : interval_map K V)
    (b1 e1 b2 e2 : K) (v1 v2 : V) (hc : m.canonical) (_h1 : b1 < e1) (h12 : e1 ≤ b2)
    (_h2 : b2 < e2) :
    ∃ ma mab mb, m.assign b1 e1 v1 = some ma ∧ ma.assign b2 e2 v2 = some mab
      ∧ m.assign b2 e2 v2 = some mb ∧ mb.assign b1 e1 v1 = some mab := by
  obtain ⟨ma, ha, hca, hva, hla⟩ := assign_spec_aux m b1 e1 v1 hc
  obtain ⟨mab, hab, hcab, hvab, hlab⟩ := assign_spec_aux ma b2 e2 v2 hca
  obtain ⟨mb, hb, hcb, hvb, hlb⟩ := assign_spec_aux m b2 e2 v2 hc
  obtain ⟨mba, hba, hcba, hvba, hlba⟩ := assign_spec_aux mb b1 e1 v1 hcb
  have heq : mba = mab := by
    apply canonical_ext_aux mba mab hcba hcab (by rw [hvba, hvb, hvab, hva])
    intro k
    rw [hlba k, hlab k, hlb k, hla k]
    by_cases hk1 : b1 ≤ k ∧ k < e1
    · have hk2 : ¬ (b2 ≤ k ∧ k < e2) :=
        fun h => absurd (lt_of_lt_of_le hk1.2 (le_trans h12 h.1)) (lt_irrefl _)
      rw [if_pos hk1, if_neg hk2, if_pos hk1]
    · rw [if_neg hk1, if_neg hk1]
  exact ⟨ma, mab, mb, ha, hab, hb, heq ▸ hba⟩

theorem assign_disjoint_commute_witness :
    (interval_map.mk 'A' [(1, 'B'), (3, 'C'), (7, 'A')] : interval_map Int Char).canonical
      ∧ (0 : Int) < 2 ∧ (2 : Int) ≤ 2 ∧ (2 : Int) < 5
      ∧ ∃ ma mab mb, (interval_map.mk 'A' [(1, 'B'), (3, 'C'), (7, 'A')] :
            interval_map Int Char).assign 0 2 'D' = some ma
        ∧ ma.assign 2 5 'D' = some mab
        ∧ (interval_map.mk 'A' [(1, 'B'), (3, 'C'), (7, 'A')] : interval_map Int Char).assign
            2 5 'D' = some mb
        ∧ mb.assign 0 2 'D' = some mab :=
  ⟨by decide, by decide, by decide, by decide,
    assign_disjoint_commute (interval_map.mk 'A' [(1, 'B'), (3, 'C'), (7, 'A')]) 0 2 2 5 'D' 'D'
      (by decide) (by decide) (by decide) (by decide)⟩

/-- C18 (iterator safety of assign). For stored entries with strictly
increasing keys and any `b`, `e`, `v`: the call `assign(b, e, v)` returns, so
no step of it decrements `begin()`, increments or dereferences `end()`, or
uses an erased node; the unguarded `--itBegin` of the `lower_bound == end()`
branch finds the last entry; and at every state the loop reaches the next
pass is defined and, once `wipePrev` is set, `erase(--itBegin)` finds an
entry before `itBegin`. -/
theorem assign_iterator_safe [LinearOrder K] [DecidableEq V] (m : interval_map K V)
    (b e : K) (v : V) (hs : sortedKeys m.m_map) :
    (∃ m1, m.assign b e v = some m1)
      ∧ (m.m_map.isEmpty = false → StdMap.lower_bound m.m_map b = Iter.pastEnd →
          ∃ k w, StdMap.dec m.m_map (StdMap.lower_bound m.m_map b) = some (Iter.node k)
            ∧ StdMap.second m.m_map (Iter.node k) = some w)
      ∧ (b < e → StdMap.lower_bound m.m_map b ≠ Iter.pastEnd →
          ∃ s0 wb, assign_entry m b v = some (s0, wb)
            ∧ ∀ j s, assign_advance m.m_valBegin b e v wb (StdMap.upper_bound m.m_map e) j s0
                  = some s →
                (∃ r, assign_body m.m_valBegin b e v wb (StdMap.upper_bound m.m_map e) s
                  = some r)
                ∧ (s.wipePrev = true → ∃ r, erasePrev s.m_map s.itBegin = some r)) := by
  refine ⟨?_, ?_, ?_⟩
  · by_cases hbe : b < e
    · exact ⟨_, assign_eq m b e v hbe hs⟩
    · exact ⟨m, by simp [interval_map.assign, hbe]⟩
  · intro hne hlb
    rw [hlb]
    rcases List.eq_nil_or_concat m.m_map with hnil | ⟨l1, p, hcat⟩
    · rw [hnil] at hne
      simp at hne
    · rw [List.concat_eq_append] at hcat
      rw [hcat] at hs ⊢
      have hp : ∀ q ∈ l1, q.1 < p.1 := fun q hq =>
        (List.pairwise_append.mp hs).2.2 q hq p (List.mem_singleton_self p)
      exact ⟨p.1, p.2, dec_pastEnd_concat l1 p, valueAt_append_cons l1 [] p hp⟩
  · intro hbe hlb
    have hsplit := isSplit_filter m.m_map b e hbe hs
    have hne : m.m_map.filter (fun p => decide (b ≤ p.1 ∧ p.1 ≤ e))
        ++ m.m_map.filter (fun p => decide (e < p.1)) ≠ [] := by
      intro hnil
      have h1 := (bounds_of_isSplit m.m_map _ _ _ b e hbe hsplit).1
      rw [hnil] at h1
      exact hlb h1
    exact assign_loop_safe_split m.m_valBegin m.m_map _ _ _ b e v hbe hsplit hne

theorem assign_iterator_safe_witness :
    sortedKeys scanExample.m_map
      ∧ (∃ m1, scanExample.assign 2 7 'C' = some m1)
      ∧ (scanExample.m_map.isEmpty = false →
          StdMap.lower_bound scanExample.m_map 2 = Iter.pastEnd →
          ∃ k w, StdMap.dec scanExample.m_map (StdMap.lower_bound scanExample.m_map 2)
              = some (Iter.node k)
            ∧ StdMap.second scanExample.m_map (Iter.node k) = some w)
      ∧ ∃ s0 wb, assign_entry scanExample 2 'C' = some (s0, wb)
          ∧ ∀ j s, assign_advance 'A' 2 7 'C' wb (StdMap.upper_bound scanExample.m_map 7) j s0
                = some s →
              (∃ r, assign_body 'A' 2 7 'C' wb (StdMap.upper_bound scanExample.m_map 7) s
                = some r)
              ∧ (s.wipePrev = true → ∃ r, erasePrev s.m_map s.itBegin = some r) :=
  have h := assign_iterator_safe scanExample 2 7 'C' (by decide)
  ⟨by decide, h.1, h.2.1, h.2.2 (by decide) (by decide)⟩

/-- C19 (the scan loop of assign terminates). For stored entries with strictly
increasing keys and `b < e`, the position `lower_bound(b)` is at or before the
position `upper_bound(e)`; and when the call reaches the loop, the loop makes
one advancing pass per old stored key `k` with `b <= k <= e`, `itBegin` never
beyond `itEnd`, then finds `itBegin == itEnd` and returns. -/
theorem assign_loop_terminates [LinearOrder K] [DecidableEq V] (m : interval_map K V)
    (b e : K) (v : V) (hs : sortedKeys m.m_map) (hbe : b < e) :
    StdMap.position m.m_map (StdMap.lower_bound m.m_map b)
        ≤ StdMap.position m.m_map (StdMap.upper_bound m.m_map e)
      ∧ (StdMap.lower_bound m.m_map b ≠ Iter.pastEnd →
          ∃ s0 wb, assign_entry m b v = some (s0, wb)
            ∧ (∀ j, j ≤ (m.m_map.filter (fun p => decide (b ≤ p.1 ∧ p.1 ≤ e))).length →
                ∃ sj, assign_advance m.m_valBegin b e v wb (StdMap.upper_bound m.m_map e) j s0
                    = some sj
                  ∧ StdMap.position sj.m_map sj.itBegin
                      ≤ StdMap.position sj.m_map (StdMap.upper_bound m.m_map e))
            ∧ ∃ s result, assign_advance m.m_valBegin b e v wb (StdMap.upper_bound m.m_map e)
                  (m.m_map.filter (fun p => decide (b ≤ p.1 ∧ p.1 ≤ e))).length s0 = some s
                ∧ s.itBegin = StdMap.upper_bound m.m_map e
                ∧ assign_body m.m_valBegin b e v wb (StdMap.upper_bound m.m_map e) s
                    = some (Sum.inl result)
                ∧ m.assign b e v = some (interval_map.mk m.m_valBegin result)) := by
  have hsplit := isSplit_filter m.m_map b e hbe hs
  obtain ⟨hlb, hub, hpos1, hpos2⟩ := bounds_of_isSplit m.m_map _ _ _ b e hbe hsplit
  refine ⟨?_, ?_⟩
  · rw [hlb, hub, hpos1, hpos2]
    omega
  · intro hlbne
    have hne : m.m_map.filter (fun p => decide (b ≤ p.1 ∧ p.1 ≤ e))
        ++ m.m_map.filter (fun p => decide (e < p.1)) ≠ [] := by
      intro hnil
      rw [hnil] at hlb
      exact hlbne hlb
    exact assign_loop_run_split m.m_valBegin m.m_map _ _ _ b e v hbe hsplit hne

theorem assign_loop_terminates_witness :
    sortedKeys scanExample.m_map
      ∧ (2 : Int) < 7
      ∧ StdMap.lower_bound scanExample.m_map 2 ≠ Iter.pastEnd
      ∧ StdMap.position scanExample.m_map (StdMap.lower_bound scanExample.m_map 2)
          ≤ StdMap.position scanExample.m_map (StdMap.upper_bound scanExample.m_map 7)
      ∧ ∃ s0 wb, assign_entry scanExample 2 'C' = some (s0, wb)
          ∧ (∀ j, j ≤ (scanExample.m_map.filter (fun p => decide (2 ≤ p.1 ∧ p.1 ≤ 7))).length →
              ∃ sj, assign_advance 'A' 2 7 'C' wb (StdMap.upper_bound scanExample.m_map 7) j s0
                  = some sj
                ∧ StdMap.position sj.m_map sj.itBegin
                    ≤ StdMap.position sj.m_map (StdMap.upper_bound scanExample.m_map 7))
          ∧ ∃ s result, assign_advance 'A' 2 7 'C' wb (StdMap.upper_bound scanExample.m_map 7)
                (scanExample.m_map.filter (fun p => decide (2 ≤ p.1 ∧ p.1 ≤ 7))).length s0 = some s
              ∧ s.itBegin = StdMap.upper_bound scanExample.m_map 7
              ∧ assign_body 'A' 2 7 'C' wb (StdMap.upper_bound scanExample.m_map 7) s
                  = some (Sum.inl result)
              ∧ scanExample.assign 2 7 'C' = some (interval_map.mk 'A' result) :=
  have h := assign_loop_terminates scanExample 2 7 'C' (by decide) (by decide)
  ⟨by decide, by decide, by decide, h.1, h.2 (by decide)⟩
